import Mathlib

/-!
# OSA_Project: dictionary translation service

A shallow embedding of the three versions of the service

* `version1/server.c`: signal triggered server (folder scan, sticky flags, random pick),
* `version2/version2.c`: writer thread (folder scan, message queue) and reader thread
  (shared memory store),
* `version3/clientv3.c`: request/reply client over one message queue,

followed by the properties proved about them.

Conventions.  A `char` is a `Char` (a byte is the code point of that value); a buffer
is a `List Char`; the C string held by a buffer is what precedes its first NUL
(`cstr`).  `size_t` and `int` values are natural
numbers: the only arithmetic done on them is `count++` below `cap`, `rand() % size`,
the line counter `sent` and list lengths, none of which wraps on the inputs
considered.  Allocation failure (`realloc`, `strdup`)
ends the process in the source and is not part of the model.
-/

namespace OSA

/-! ## C library -/

/-- The terminating byte of a C string. -/
def NUL : Char := Char.ofNat 0

/-- `#define WORD_LEN 50` (all three versions). -/
def WORD_LEN : Nat := 50

/-- `#define LINE_BUF 256` (versions 1 and 2). -/
def LINE_BUF : Nat := 256

/-- The C string a buffer holds: the bytes before its first NUL. -/
def cstr (buf : List Char) : List Char :=
  buf.takeWhile (fun c => decide (c ≠ NUL))

/-- `strlen(s)`. -/
def strlen (s : List Char) : Nat := (cstr s).length

/-- `strchr(s, c)` for `c` other than NUL, `s` being given as the C string it holds:
the offset of the first `c`, or `none` for the NULL pointer. -/
def strchr : List Char → Char → Option Nat
  | [], _ => none
  | x :: xs, c => if x = c then some 0 else (strchr xs c).map (fun i => i + 1)

/-- `strncpy(dst, src, n)`: the first `n` bytes of `dst` become the C string of `src`
cut to `n` bytes and padded with NUL up to `n` bytes; the bytes of `dst` from offset
`n` on are kept. -/
def strncpy (dst src : List Char) (n : Nat) : List Char :=
  ((cstr src).take n ++ List.replicate (n - ((cstr src).take n).length) NUL) ++ dst.drop n

/-- The buffers successive calls `fgets(line, size, f)` return until the call that
returns NULL: each call reads bytes up to and including a newline, stops after
`size - 1` bytes, or stops at end of file.  `cur` is what the running call has read. -/
def fgetsFrom (size : Nat) : List Char → List Char → List (List Char)
  | [], cur => if cur = [] then [] else [cur]
  | c :: cs, cur =>
    if c = '\n' ∨ size ≤ (cur ++ [c]).length + 1 then
      (cur ++ [c]) :: fgetsFrom size cs []
    else fgetsFrom size cs (cur ++ [c])

/-- All buffers read from a stream by `while(fgets(line, size, f))`. -/
def fgetsAll (size : Nat) (content : List Char) : List (List Char) :=
  fgetsFrom size content []

/-! ## Shared by versions 1 and 2 -/

/-- `typedef struct { char english[WORD_LEN]; char french[WORD_LEN]; } WordPair;`
each field is the content of its 50 byte buffer. -/
structure WordPair where
  english : List Char
  french : List Char
deriving DecidableEq, Repr

/-- The bytes `rtrim` strips. -/
def isTrimChar (c : Char) : Bool :=
  c == '\n' || c == '\r' || c == ' ' || c == '\t'

/-- The loop of `rtrim`: `while(n>0 && (s[n-1] is one of \n \r space \t)) s[--n]=0`,
returning the C string left in `s`. -/
def rtrimLoop (s : List Char) : Nat → List Char
  | 0 => []
  | n + 1 => if isTrimChar (s.getD n NUL) then rtrimLoop s n else s.take (n + 1)

/-- `rtrim(s)`: `n = strlen(s)` followed by the loop; the result is the C string that
`s` holds afterwards. -/
def rtrim (s : List Char) : List Char := rtrimLoop (cstr s) (strlen s)

/-- The two statements `strncpy(f, src, WORD_LEN-1); f[WORD_LEN-1] = 0`
that fill one field `f` of a record. -/
def copy_field (dst src : List Char) : List Char :=
  (strncpy dst src (WORD_LEN - 1)).set (WORD_LEN - 1) NUL

/-- What an uninitialised local record field holds.  `copy_field` overwrites all 50
bytes, so the value chosen here never shows (`copy_field_any_dst`). -/
def uninit_field : List Char := List.replicate WORD_LEN NUL

/-- One directory entry as `readdir`, `stat` and `fopen` present it: its name, whether
`stat` succeeds and reports a regular file, and the bytes of the file (`none` when
`fopen` fails). -/
structure Entry where
  d_name : List Char
  regular : Bool
  content : Option (List Char)
deriving DecidableEq, Repr

/-- The test `strcmp(name, ".")==0 || strcmp(name, "..")==0`. -/
def isDotEntry (name : List Char) : Bool :=
  name == ['.'] || name == ['.', '.']

end OSA

/-! ## Version 1: `server.c` -/

namespace OSA.V1

open OSA

/-- `Dict`: the dynamic array, as the list of its `size` elements. -/
abbrev Dict := List WordPair

/-- `dict_push`. -/
def dict_push (d : Dict) (wp : WordPair) : Dict := d ++ [wp]

/-- `LoadedSet`: the array of names, as a list. -/
abbrev LoadedSet := List (List Char)

/-- `set_contains`: linear search with `strcmp`. -/
def set_contains : LoadedSet → List Char → Bool
  | [], _ => false
  | n :: ns, name => if n = name then true else set_contains ns name

/-- `set_add`. -/
def set_add (s : LoadedSet) (name : List Char) : LoadedSet :=
  if set_contains s name then s else s ++ [name]

/-- The globals of `server.c`. -/
structure Server where
  g_dict : Dict
  g_loaded : LoadedSet
  g_req_eng2fr : Nat
  g_req_fr2eng : Nat
deriving DecidableEq, Repr

/-- The body of the `while(fgets(...))` loop of `load_file_into_dict`, run on the
buffer `line` that `fgets` filled. -/
def load_line (d : Dict) (line : List Char) : Dict :=
  let l := rtrim line
  if l = [] then d
  else
    match strchr l ';' with
    | none => d
    | some i =>
      let eng := l.take i
      let fr := l.drop (i + 1)
      let wp : WordPair :=
        { english := copy_field uninit_field eng, french := copy_field uninit_field fr }
      if 0 < strlen wp.english ∧ 0 < strlen wp.french then dict_push d wp else d

/-- `load_file_into_dict`: when `fopen` fails nothing is loaded. -/
def load_file_into_dict (d : Dict) (content : Option (List Char)) : Dict :=
  match content with
  | none => d
  | some bytes => (fgetsAll LINE_BUF bytes).foldl load_line d

/-- The body of the `readdir` loop of `scan_and_load`. -/
def scan_entry (s : Server) (e : Entry) : Server :=
  if isDotEntry e.d_name then s
  else if !e.regular then s
  else if set_contains s.g_loaded e.d_name then s
  else
    { s with
      g_dict := load_file_into_dict s.g_dict e.content
      g_loaded := set_add s.g_loaded e.d_name }

/-- `scan_and_load`: `folder` is `none` when `opendir` fails. -/
def scan_and_load (s : Server) (folder : Option (List Entry)) : Server :=
  match folder with
  | none => s
  | some entries => entries.foldl scan_entry s

/-- `sigusr1_handler`: `g_req_eng2fr = 1`. -/
def sigusr1_handler (s : Server) : Server := { s with g_req_eng2fr := 1 }

/-- `sigusr2_handler`: `g_req_fr2eng = 1`. -/
def sigusr2_handler (s : Server) : Server := { s with g_req_fr2eng := 1 }

/-- What `printf("[translate] Dictionary empty.\n")` writes. -/
def out_empty : List Char := "[translate] Dictionary empty.\n".toList

/-- What `printf("[EN->FR]  %s  ->  %s\n", first, second)` writes. -/
def out_en_fr (first second : List Char) : List Char :=
  "[EN->FR]  ".toList ++ cstr first ++ "  ->  ".toList ++ cstr second ++ "\n".toList

/-- What `printf("[FR->EN]  %s  ->  %s\n", first, second)` writes. -/
def out_fr_en (first second : List Char) : List Char :=
  "[FR->EN]  ".toList ++ cstr first ++ "  ->  ".toList ++ cstr second ++ "\n".toList

/-- The element `g_dict.data[i]`; the sentinel stands for a read outside the array. -/
def dict_at (d : Dict) (i : Nat) : WordPair := d.getD i ⟨[], []⟩

/-- The block `if(g_req_eng2fr){ ... }` of the main loop; `r` is the value `rand()`
returns there.  The result is the new state and the lines printed. -/
def handle_eng2fr (s : Server) (r : Nat) : Server × List (List Char) :=
  if s.g_req_eng2fr ≠ 0 then
    let s1 := { s with g_req_eng2fr := 0 }
    if s1.g_dict.length = 0 then (s1, [out_empty])
    else
      let i := r % s1.g_dict.length
      (s1, [out_en_fr (dict_at s1.g_dict i).english (dict_at s1.g_dict i).french])
  else (s, [])

/-- The block `if(g_req_fr2eng){ ... }` of the main loop; `r` is the value `rand()`
returns there. -/
def handle_fr2eng (s : Server) (r : Nat) : Server × List (List Char) :=
  if s.g_req_fr2eng ≠ 0 then
    let s1 := { s with g_req_fr2eng := 0 }
    if s1.g_dict.length = 0 then (s1, [out_empty])
    else
      let i := r % s1.g_dict.length
      (s1, [out_fr_en (dict_at s1.g_dict i).french (dict_at s1.g_dict i).english])
  else (s, [])

/-- The request handling part of one iteration of `for(;;)`: both blocks in order,
`r1` and `r2` being the values of the two `rand()` call sites. -/
def handle_requests (s : Server) (r1 r2 : Nat) : Server × List (List Char) :=
  let a := handle_eng2fr s r1
  let b := handle_fr2eng a.1 r2
  (b.1, a.2 ++ b.2)

/-- `n` deliveries of SIGUSR1 in a row. -/
def deliver_usr1 (n : Nat) (s : Server) : Server := (sigusr1_handler^[n]) s

/-- `n` deliveries of SIGUSR2 in a row. -/
def deliver_usr2 (n : Nat) (s : Server) : Server := (sigusr2_handler^[n]) s

end OSA.V1

/-! ## Version 2: `version2.c` -/

namespace OSA.V2

open OSA

/-- `enum { EN_FR = 1, FR_EN = 2 }`. -/
def EN_FR : Nat := 1

/-- The second enumerator. -/
def FR_EN : Nat := 2

/-- `#define SHM_CAP 4096`. -/
def SHM_CAP : Nat := 4096

/-- `Msg`: `mtype` and the two 50 byte fields. -/
structure Msg where
  mtype : Nat
  english : List Char
  french : List Char
deriving DecidableEq, Repr

/-- `ShmDict`: `count`, `cap` and the array `data`. -/
structure ShmDict where
  count : Nat
  cap : Nat
  data : List WordPair
deriving DecidableEq, Repr

/-- `Loaded`: the array of names, as a list. -/
abbrev Loaded := List (List Char)

/-- `loaded_has`: linear search with `strcmp`. -/
def loaded_has : Loaded → List Char → Bool
  | [], _ => false
  | n :: ns, name => if n = name then true else loaded_has ns name

/-- `loaded_add`. -/
def loaded_add (l : Loaded) (name : List Char) : Loaded :=
  if loaded_has l name then l else l ++ [name]

/-- `send_pair`: the messages handed to `msgsnd`, in order.  The local `m` is reused,
so the second message is written over the first. -/
def send_pair (en fr : List Char) : List Msg :=
  let m1 : Msg :=
    { mtype := EN_FR
      english := copy_field uninit_field en
      french := copy_field uninit_field fr }
  let m2 : Msg :=
    { mtype := FR_EN
      english := copy_field m1.english fr
      french := copy_field m1.french en }
  [m1, m2]

/-- The body of the `while(fgets(...))` loop of `load_file`, run on the buffer `line`:
the state is the messages sent so far and the counter `sent`. -/
def load_line (st : List Msg × Nat) (line : List Char) : List Msg × Nat :=
  let l := rtrim line
  if l = [] then st
  else
    match strchr l ';' with
    | none => st
    | some i =>
      let en := l.take i
      let fr := l.drop (i + 1)
      if en ≠ [] ∧ fr ≠ [] then (st.1 ++ send_pair en fr, st.2 + 1) else st

/-- `load_file`: the messages sent and the final value of `sent`; nothing when `fopen`
fails. -/
def load_file (content : Option (List Char)) : List Msg × Nat :=
  match content with
  | none => ([], 0)
  | some bytes => (fgetsAll LINE_BUF bytes).foldl load_line ([], 0)

/-- The state of the writer thread: `g_loaded` and every message it has handed to
`msgsnd`. -/
structure Writer where
  g_loaded : Loaded
  sent : List Msg
deriving DecidableEq, Repr

/-- The body of the `readdir` loop of `writer_thread`. -/
def writer_entry (w : Writer) (e : Entry) : Writer :=
  if isDotEntry e.d_name then w
  else if loaded_has w.g_loaded e.d_name then w
  else if !e.regular then w
  else
    { g_loaded := loaded_add w.g_loaded e.d_name
      sent := w.sent ++ (load_file e.content).1 }

/-- One pass of the `while(g_running)` loop of `writer_thread`: `folder` is `none`
when `opendir` fails. -/
def writer_pass (w : Writer) (folder : Option (List Entry)) : Writer :=
  match folder with
  | none => w
  | some entries => entries.foldl writer_entry w

/-- What `store_in_shm` reports: the `stored` line with the index, or `SHM full`. -/
inductive Report where
  | stored (idx : Nat)
  | full (cap : Nat)
deriving DecidableEq, Repr

/-- The slot `g_shm->data[i]`. -/
def slot (s : ShmDict) (i : Nat) : WordPair := s.data.getD i ⟨[], []⟩

/-- `WordPair *wp = &g_shm->data[g_shm->count++]`: the pointer is taken at the old
count and `count` is incremented. -/
def step_bump (s : ShmDict) : ShmDict := { s with count := s.count + 1 }

/-- `strncpy(wp->english, m->english, WORD_LEN-1)` with `wp = &data[i]`. -/
def step_copy_english (i : Nat) (m : Msg) (s : ShmDict) : ShmDict :=
  { s with data := (s.data.set i
      ⟨strncpy (slot s i).english m.english (WORD_LEN - 1), (slot s i).french⟩) }

/-- `wp->english[WORD_LEN-1] = 0`. -/
def step_end_english (i : Nat) (s : ShmDict) : ShmDict :=
  { s with data := (s.data.set i
      ⟨(slot s i).english.set (WORD_LEN - 1) NUL, (slot s i).french⟩) }

/-- `strncpy(wp->french, m->french, WORD_LEN-1)`. -/
def step_copy_french (i : Nat) (m : Msg) (s : ShmDict) : ShmDict :=
  { s with data := (s.data.set i
      ⟨(slot s i).english, strncpy (slot s i).french m.french (WORD_LEN - 1)⟩) }

/-- `wp->french[WORD_LEN-1] = 0`. -/
def step_end_french (i : Nat) (s : ShmDict) : ShmDict :=
  { s with data := (s.data.set i
      ⟨(slot s i).english, (slot s i).french.set (WORD_LEN - 1) NUL⟩) }

/-- The states `g_shm` goes through during one call of `store_in_shm`, between
`pthread_mutex_lock` and `pthread_mutex_unlock`, one per statement. -/
def store_trace (s : ShmDict) (m : Msg) : List ShmDict :=
  if s.count < s.cap then
    let i := s.count
    let s1 := step_bump s
    let s2 := step_copy_english i m s1
    let s3 := step_end_english i s2
    let s4 := step_copy_french i m s3
    let s5 := step_end_french i s4
    [s, s1, s2, s3, s4, s5]
  else [s]

/-- `store_in_shm`: the state when the lock is released, and what was reported. -/
def store_in_shm (s : ShmDict) (m : Msg) : ShmDict × Report :=
  if s.count < s.cap then
    let i := s.count
    (step_end_french i (step_copy_french i m (step_end_english i
      (step_copy_english i m (step_bump s)))), Report.stored i)
  else (s, Report.full s.cap)

/-- The reader thread storing a sequence of received messages: the final state and
the reports, in order. -/
def store_all (s : ShmDict) : List Msg → ShmDict × List Report
  | [] => (s, [])
  | m :: ms =>
    let r := store_in_shm s m
    let rest := store_all r.1 ms
    (rest.1, r.2 :: rest.2)

/-- The record a completed append of `m` leaves in its slot. -/
def written (m : Msg) : WordPair :=
  { english := (cstr m.english).take (WORD_LEN - 1) ++
      List.replicate (WORD_LEN - ((cstr m.english).take (WORD_LEN - 1)).length) NUL
    french := (cstr m.french).take (WORD_LEN - 1) ++
      List.replicate (WORD_LEN - ((cstr m.french).take (WORD_LEN - 1)).length) NUL }

end OSA.V2

/-! ## Version 3: `clientv3.c` -/

namespace OSA.V3

open OSA

/-- `enum { REQ_EN_FR = 1, REQ_FR_EN = 2 }`. -/
def REQ_EN_FR : Nat := 1

/-- The second enumerator. -/
def REQ_FR_EN : Nat := 2

/-- `RequestMsg`. -/
structure RequestMsg where
  mtype : Nat
  reply_to : Nat
  word : List Char
deriving DecidableEq, Repr

/-- `ResponseMsg`. -/
structure ResponseMsg where
  mtype : Nat
  found : Int
  translation : List Char
deriving DecidableEq, Repr

/-- A message on the queue shared by requests and responses. -/
inductive QMsg where
  | request (r : RequestMsg)
  | response (r : ResponseMsg)
deriving DecidableEq, Repr

/-- The `mtype` a message was sent with. -/
def QMsg.mtype : QMsg → Nat
  | QMsg.request r => r.mtype
  | QMsg.response r => r.mtype

/-- `msgsnd`: the message joins the tail of the queue. -/
def msgsnd (q : List QMsg) (m : QMsg) : List QMsg := q ++ [m]

/-- The first message whose `mtype` is `t`, taken off the queue. -/
def take_first : List QMsg → Nat → Option (QMsg × List QMsg)
  | [], _ => none
  | m :: q, t =>
    if m.mtype = t then some (m, q)
    else (take_first q t).map (fun r => (r.1, m :: r.2))

/-- `msgrcv(q, ..., msgtyp, 0)` for `msgtyp ≥ 0`: with `msgtyp = 0` the first message
of the queue is taken, with `msgtyp > 0` the first message of that type; `none`
stands for the call still blocking. -/
def msgrcv (q : List QMsg) (msgtyp : Nat) : Option (QMsg × List QMsg) :=
  if msgtyp = 0 then
    match q with
    | [] => none
    | m :: rest => some (m, rest)
  else take_first q msgtyp

/-- Lines 63 to 69 of `main`: the request built from the tokens `dir` and `word` by
the client whose process ID is `me`; `none` when the first byte of `dir` is none of
`e E f F` and nothing is sent. -/
def build_request (me : Nat) (dir word : List Char) : Option RequestMsg :=
  let zeroed := List.replicate WORD_LEN NUL
  if dir.getD 0 NUL = 'e' ∨ dir.getD 0 NUL = 'E' then
    some { mtype := REQ_EN_FR, reply_to := me, word := strncpy zeroed word (WORD_LEN - 1) }
  else if dir.getD 0 NUL = 'f' ∨ dir.getD 0 NUL = 'F' then
    some { mtype := REQ_FR_EN, reply_to := me, word := strncpy zeroed word (WORD_LEN - 1) }
  else none

/-- Line 71: the request is sent on the queue. -/
def client_send (me : Nat) (dir word : List Char) (q : List QMsg) : Option (List QMsg) :=
  (build_request me dir word).map (fun r => msgsnd q (QMsg.request r))

/-- Line 76: `msgrcv(msq, &res, ..., me, 0)`. -/
def client_receive (me : Nat) (q : List QMsg) : Option (QMsg × List QMsg) :=
  msgrcv q me

end OSA.V3

/-! ## Definitions used in the statements -/

namespace OSA

/-- The two sides the loops of `load_file_into_dict` and `load_file` split a buffer
into, when they accept it: both trim, look for the first `;` and ask for two
non-empty sides. -/
def decode (line : List Char) : Option (List Char × List Char) :=
  match strchr (rtrim line) ';' with
  | none => none
  | some i =>
    if (rtrim line).take i ≠ [] ∧ (rtrim line).drop (i + 1) ≠ [] then
      some ((rtrim line).take i, (rtrim line).drop (i + 1))
    else none

/-- A buffer or line the decoder rejects: it has no `;`, or it starts with `;`
(empty source side), or it is `a;w` with no `;` in `a` and `w` made only of the bytes
`rtrim` strips (target side empty once trimmed). -/
def malformed (line : List Char) : Prop :=
  ';' ∉ line ∨ (∃ r, line = ';' :: r) ∨
    (∃ a w, line = a ++ ';' :: w ∧ ';' ∉ a ∧ ∀ c ∈ w, isTrimChar c = true)

end OSA

namespace OSA.V2

/-- Whether a report is the `stored` line. -/
def Report.isStored : Report → Bool
  | Report.stored _ => true
  | Report.full _ => false

/-- The number of appends a run of reports shows as successful. -/
def successes (rs : List Report) : Nat := (rs.filter Report.isStored).length

/-- The first `count` slots are the completed records of the messages `hist`, in
order: `count` says no more than what has been written. -/
def consistent (s : ShmDict) (hist : List Msg) : Prop :=
  s.count = hist.length ∧ s.data.take s.count = hist.map written

end OSA.V2

namespace OSA

/-- A 50 byte field holds a side cut to at most 49 bytes: the buffer is 50 bytes
long, its last byte is NUL, the string it holds is at most 49 bytes long and is the
first `min (length of the side) 49` bytes of the side. -/
def field_holds (buf side : List Char) : Prop :=
  buf.length = WORD_LEN ∧ buf.get? (WORD_LEN - 1) = some NUL ∧ strlen buf ≤ WORD_LEN - 1 ∧
    cstr buf = side.take (min side.length (WORD_LEN - 1))

/-- The one-record dictionary `hello`/`bonjour` used in the examples. -/
def sample_dict : V1.Dict := V1.load_line [] "hello;bonjour\n".toList

/-- The two-record dictionary loaded from the lines `hello;bonjour` and `cat;chat`. -/
def sample_dict2 : V1.Dict :=
  V1.load_file_into_dict [] (some "hello;bonjour\ncat;chat\n".toList)

end OSA

namespace OSA.V3

/-- Every request waiting on the queue has one of the two request types. -/
def requests_typed (q : List QMsg) : Prop :=
  ∀ r, QMsg.request r ∈ q → r.mtype = REQ_EN_FR ∨ r.mtype = REQ_FR_EN

end OSA.V3

/-! ## Lemmas -/

namespace OSA

theorem cstr_nil : cstr [] = [] := rfl

theorem cstr_of_not_mem {s : List Char} (h : NUL ∉ s) : cstr s = s := by
  unfold cstr
  rw [List.takeWhile_eq_self_iff]
  intro c hc
  have : c ≠ NUL := fun e => h (e ▸ hc)
  simpa using this

theorem not_mem_cstr (s : List Char) : NUL ∉ cstr s := by
  intro h
  have := List.mem_takeWhile_imp h
  simp at this

theorem cstr_idem (s : List Char) : cstr (cstr s) = cstr s :=
  cstr_of_not_mem (not_mem_cstr s)

theorem cstr_cons (x : Char) (xs : List Char) :
    cstr (x :: xs) = if x = NUL then [] else x :: cstr xs := by
  by_cases hx : x = NUL <;> simp [cstr, List.takeWhile_cons, hx]

theorem cstr_append_nul {s : List Char} (t : List Char) (h : NUL ∉ s) :
    cstr (s ++ NUL :: t) = s := by
  induction s with
  | nil => simp [cstr_cons]
  | cons x xs ih =>
    have hx : x ≠ NUL := fun e => h (by simp [e])
    have hxs : NUL ∉ xs := fun e => h (by simp [e])
    rw [List.cons_append, cstr_cons, if_neg hx, ih hxs]

theorem cstr_append_of_not_mem {s : List Char} (t : List Char) (h : NUL ∉ s) :
    cstr (s ++ t) = s ++ cstr t := by
  induction s with
  | nil => simp
  | cons x xs ih =>
    have hx : x ≠ NUL := fun e => h (by simp [e])
    have hxs : NUL ∉ xs := fun e => h (by simp [e])
    rw [List.cons_append, cstr_cons, if_neg hx, ih hxs, List.cons_append]

theorem cstr_take_not_mem (s : List Char) (n : Nat) : NUL ∉ (cstr s).take n :=
  fun h => not_mem_cstr s (List.mem_of_mem_take h)

theorem rtrimLoop_eq (s : List Char) (n : Nat) (h : n ≤ s.length) :
    rtrimLoop s n = (s.take n).rdropWhile isTrimChar := by
  induction n with
  | zero => simp [rtrimLoop]
  | succ n ih =>
    have hn : n < s.length := h
    have ht : s.take (n + 1) = s.take n ++ [s.getD n NUL] := by
      rw [List.take_succ, List.getD_eq_getElem?_getD, List.getElem?_eq_getElem hn]
      simp
    rw [rtrimLoop, ht, List.rdropWhile_concat, ih (Nat.le_of_lt hn)]

theorem rtrim_eq (s : List Char) : rtrim s = (cstr s).rdropWhile isTrimChar := by
  unfold rtrim strlen
  rw [rtrimLoop_eq _ _ (Nat.le_refl _), List.take_length]

theorem strchr_append {a : List Char} (b : List Char) {c : Char} (h : c ∉ a) :
    strchr (a ++ c :: b) c = some a.length := by
  induction a with
  | nil => simp [strchr]
  | cons x xs ih =>
    have hx : x ≠ c := fun e => h (by simp [e])
    have hxs : c ∉ xs := fun e => h (by simp [e])
    simp [strchr, hx, ih hxs]

theorem strchr_eq_none {s : List Char} {c : Char} (h : c ∉ s) :
    strchr s c = none := by
  induction s with
  | nil => rfl
  | cons x xs ih =>
    have hx : x ≠ c := fun e => h (by simp [e])
    have hxs : c ∉ xs := fun e => h (by simp [e])
    simp [strchr, hx, ih hxs]

theorem copy_field_eq (dst src : List Char) (h : dst.length = WORD_LEN) :
    copy_field dst src =
      (cstr src).take (WORD_LEN - 1) ++
        List.replicate (WORD_LEN - ((cstr src).take (WORD_LEN - 1)).length) NUL := by
  have hl : ((cstr src).take (WORD_LEN - 1)).length ≤ WORD_LEN - 1 := by
    rw [List.length_take]; exact Nat.min_le_left _ _
  obtain ⟨d, hd⟩ : ∃ d, dst.drop (WORD_LEN - 1) = [d] := by
    have : (dst.drop (WORD_LEN - 1)).length = 1 := by
      rw [List.length_drop, h]; rfl
    match hq : dst.drop (WORD_LEN - 1), this with
    | [d], _ => exact ⟨d, rfl⟩
  unfold copy_field strncpy
  rw [hd]
  generalize (cstr src).take (WORD_LEN - 1) = s at hl ⊢
  have hlen : (s ++ List.replicate (WORD_LEN - 1 - s.length) NUL).length = WORD_LEN - 1 := by
    rw [List.length_append, List.length_replicate]; omega
  rw [List.set_append_right _ _ (by rw [hlen]), hlen, Nat.sub_self, List.set_cons_zero,
    List.append_assoc]
  congr 1
  have : WORD_LEN - s.length = (WORD_LEN - 1 - s.length) + 1 := by
    have : 1 ≤ WORD_LEN := by decide
    omega
  rw [this, List.replicate_succ', ]

theorem cstr_pad_set (k : Nat) (rest : List Char) :
    cstr (List.replicate k NUL ++ rest.set 0 NUL) = [] := by
  cases k with
  | zero =>
    cases rest with
    | nil => rfl
    | cons x xs => simp [cstr_cons]
  | succ k => simp [List.replicate_succ, cstr_cons]

theorem cstr_copy_field (dst src : List Char) :
    cstr (copy_field dst src) = (cstr src).take (WORD_LEN - 1) := by
  have hl : ((cstr src).take (WORD_LEN - 1)).length ≤ WORD_LEN - 1 := by
    rw [List.length_take]; exact Nat.min_le_left _ _
  have hn : NUL ∉ (cstr src).take (WORD_LEN - 1) := cstr_take_not_mem _ _
  unfold copy_field strncpy
  generalize (cstr src).take (WORD_LEN - 1) = s at hl hn ⊢
  have hlen : (s ++ List.replicate (WORD_LEN - 1 - s.length) NUL).length = WORD_LEN - 1 := by
    rw [List.length_append, List.length_replicate]; omega
  rw [List.set_append_right _ _ (by rw [hlen]), hlen, Nat.sub_self, List.append_assoc,
    cstr_append_of_not_mem _ hn, cstr_pad_set, List.append_nil]

theorem length_copy_field (dst src : List Char) (h : dst.length = WORD_LEN) :
    (copy_field dst src).length = WORD_LEN := by
  have hl : ((cstr src).take (WORD_LEN - 1)).length ≤ WORD_LEN - 1 := by
    rw [List.length_take]; exact Nat.min_le_left _ _
  rw [copy_field_eq dst src h, List.length_append, List.length_replicate]
  omega

theorem copy_field_any_dst (dst src : List Char) (h : dst.length = WORD_LEN) :
    copy_field dst src = copy_field uninit_field src := by
  rw [copy_field_eq dst src h, copy_field_eq uninit_field src (by simp [uninit_field])]

theorem strlen_copy_field_pos (dst src : List Char) :
    0 < strlen (copy_field dst src) ↔ cstr src ≠ [] := by
  unfold strlen
  rw [cstr_copy_field, List.length_pos]
  cases cstr src with
  | nil => simp
  | cons x xs => simp [WORD_LEN]

theorem rtrim_initial (s : List Char) : rtrim s <+: s := by
  rw [rtrim_eq]
  exact ( List.rdropWhile_prefix _ _).trans ( List.takeWhile_prefix _)

theorem not_mem_rtrim (s : List Char) : NUL ∉ rtrim s := by
  rw [rtrim_eq]
  exact fun h => not_mem_cstr s (( List.rdropWhile_prefix _ _).subset h)

theorem isTrimChar_ne_nul {c : Char} (h : isTrimChar c = true) : c ≠ NUL := by
  intro e
  subst e
  revert h
  decide

theorem rdropWhile_append_all {p : Char → Bool} (x w : List Char)
    (hw : ∀ c ∈ w, p c = true) : (x ++ w).rdropWhile p = x.rdropWhile p := by
  induction w using List.reverseRecOn with
  | nil => simp
  | append_singleton w c ih =>
    rw [← List.append_assoc, List.rdropWhile_concat,
      if_pos (hw c (by simp)), ih (fun c hc => hw c (by simp [hc]))]

theorem rtrim_body (x w : List Char) (hx : NUL ∉ x) (hne : x ≠ [])
    (hlast : isTrimChar (x.getLast hne) = false) (hw : ∀ c ∈ w, isTrimChar c = true) :
    rtrim (x ++ w) = x := by
  have hnw : NUL ∉ w := fun h => isTrimChar_ne_nul (hw _ h) rfl
  have hn : NUL ∉ x ++ w := by simp [hx, hnw]
  rw [rtrim_eq, cstr_of_not_mem hn, rdropWhile_append_all x w hw,
    List.rdropWhile_eq_self_iff]
  intro h
  simp [hlast]

theorem cstr_append_of_mem {s : List Char} (t : List Char) (h : NUL ∈ s) :
    cstr (s ++ t) = cstr s := by
  induction s with
  | nil => simp at h
  | cons x xs ih =>
    rw [List.cons_append, cstr_cons, cstr_cons]
    by_cases hx : x = NUL
    · simp [hx]
    · have : NUL ∈ xs := by
        rcases List.mem_cons.mp h with e | e
        · exact absurd e.symm hx
        · exact e
      rw [if_neg hx, if_neg hx, ih this]

theorem decode_valid (a b w : List Char) (ha : a ≠ []) (hb : b ≠ [])
    (hsemi : ';' ∉ a) (hna : NUL ∉ a) (hnb : NUL ∉ b)
    (hlast : isTrimChar (b.getLast hb) = false) (hw : ∀ c ∈ w, isTrimChar c = true) :
    decode (a ++ ';' :: b ++ w) = some (a, b) := by
  have hx : NUL ∉ a ++ ';' :: b := by
    have : NUL ≠ ';' := by decide
    simp [hna, hnb, this]
  have hne : a ++ ';' :: b ≠ [] := by simp
  have hl : (a ++ ';' :: b).getLast hne = b.getLast hb := by
    simp [List.getLast_append, hb]
  have hr : rtrim (a ++ ';' :: b ++ w) = a ++ ';' :: b := by
    have := rtrim_body (a ++ ';' :: b) w hx hne (by rw [hl]; exact hlast) hw
    simpa using this
  unfold decode
  rw [hr, strchr_append b hsemi]
  simp [ha, hb]

theorem decode_no_semi (line : List Char) (h : ';' ∉ line) : decode line = none := by
  unfold decode
  rw [strchr_eq_none (fun hm => h ((rtrim_initial line).subset hm))]

theorem rdropWhile_cons_of_neg {p : Char → Bool} (x : Char) (xs : List Char)
    (hx : p x = false) : (x :: xs).rdropWhile p = x :: xs.rdropWhile p := by
  induction xs using List.reverseRecOn with
  | nil => simp [List.rdropWhile, hx]
  | append_singleton xs c ih =>
    rw [← List.cons_append, List.rdropWhile_concat, List.rdropWhile_concat, ih]
    split <;> simp

theorem decode_empty_source (rest : List Char) : decode (';' :: rest) = none := by
  have hnn : (';' : Char) ≠ NUL := by decide
  have hr : rtrim (';' :: rest) = ';' :: (cstr rest).rdropWhile isTrimChar := by
    rw [rtrim_eq, cstr_cons, if_neg hnn, rdropWhile_cons_of_neg _ _ (by decide)]
  unfold decode
  rw [hr]
  simp [strchr]

theorem decode_blank_target (a w : List Char) (hsemi : ';' ∉ a)
    (hw : ∀ c ∈ w, isTrimChar c = true) : decode (a ++ ';' :: w) = none := by
  by_cases hna : NUL ∈ a
  · unfold decode
    have hp : rtrim (a ++ ';' :: w) <+: a := by
      rw [rtrim_eq, cstr_append_of_mem _ hna]
      exact ( List.rdropWhile_prefix _ _).trans ( List.takeWhile_prefix _)
    rw [strchr_eq_none (fun hm => hsemi (hp.subset hm))]
  · have hx : NUL ∉ a ++ [';'] := by
      have : NUL ≠ ';' := by decide
      simp [hna, this]
    have hr : rtrim (a ++ ';' :: w) = a ++ [';'] := by
      have := rtrim_body (a ++ [';']) w hx (by simp) (by simp; decide) hw
      simpa using this
    unfold decode
    rw [hr, strchr_append [] hsemi]
    simp

end OSA

namespace OSA.V1

theorem load_line_push (d : Dict) (line : List Char) :
    load_line d line =
      match decode line with
      | none => d
      | some p => dict_push d ⟨copy_field uninit_field p.1, copy_field uninit_field p.2⟩ := by
  unfold load_line decode
  by_cases hl : rtrim line = []
  · simp [hl, strchr]
  · simp only [hl, if_false]
    cases hs : strchr (rtrim line) ';' with
    | none => rfl
    | some i =>
      have h1 : cstr ((rtrim line).take i) = (rtrim line).take i :=
        cstr_of_not_mem (fun h => not_mem_rtrim line (List.mem_of_mem_take h))
      have h2 : cstr ((rtrim line).drop (i + 1)) = (rtrim line).drop (i + 1) :=
        cstr_of_not_mem (fun h => not_mem_rtrim line (List.mem_of_mem_drop h))
      simp only [strlen_copy_field_pos, h1, h2]
      by_cases hc : (rtrim line).take i ≠ [] ∧ (rtrim line).drop (i + 1) ≠ []
      · rw [if_pos hc, if_pos hc]
      · rw [if_neg hc, if_neg hc]

end OSA.V1

namespace OSA.V2

theorem load_line_send (st : List Msg × Nat) (line : List Char) :
    load_line st line =
      match decode line with
      | none => st
      | some p => (st.1 ++ send_pair p.1 p.2, st.2 + 1) := by
  unfold load_line decode
  by_cases hl : rtrim line = []
  · simp [hl, strchr]
  · simp only [hl, if_false]
    cases hs : strchr (rtrim line) ';' with
    | none => rfl
    | some i =>
      by_cases hc : (rtrim line).take i ≠ [] ∧ (rtrim line).drop (i + 1) ≠ []
      · simp only [if_pos hc]
      · simp only [if_neg hc]

end OSA.V2

namespace OSA

theorem fgetsFrom_line (size : Nat) (s rest cur : List Char) (hs : '\n' ∉ s)
    (hlen : (cur ++ s).length + 2 ≤ size) :
    fgetsFrom size (s ++ '\n' :: rest) cur = (cur ++ s ++ ['\n']) :: fgetsFrom size rest [] := by
  induction s generalizing cur with
  | nil => simp [fgetsFrom]
  | cons x xs ih =>
    have hx : x ≠ '\n' := fun e => hs (by simp [e])
    have hxs : '\n' ∉ xs := fun e => hs (by simp [e])
    have hl : ¬ size ≤ (cur ++ [x]).length + 1 := by
      simp only [List.length_append, List.length_cons, List.length_nil] at hlen ⊢
      omega
    rw [List.cons_append, fgetsFrom, if_neg (fun h => h.elim hx hl),
      ih (cur ++ [x]) hxs (by simpa [Nat.add_assoc, Nat.add_comm 1] using hlen)]
    simp

theorem fgetsAll_line (size : Nat) (s rest : List Char) (hs : '\n' ∉ s)
    (hlen : s.length + 2 ≤ size) :
    fgetsAll size (s ++ '\n' :: rest) = (s ++ ['\n']) :: fgetsAll size rest := by
  unfold fgetsAll
  rw [fgetsFrom_line size s rest [] hs (by simpa using hlen)]
  simp

theorem getLastD_eq_getLast (b : List Char) (hb : b ≠ []) (x : Char) :
    b.getLastD x = b.getLast hb := by
  rw [List.getLastD_eq_getLast?, List.getLast?_eq_getLast b hb]
  rfl

theorem cstr_copy_field_short (dst s : List Char) (hn : NUL ∉ s)
    (hl : s.length ≤ WORD_LEN - 1) : cstr (copy_field dst s) = s := by
  rw [cstr_copy_field, cstr_of_not_mem hn, List.take_of_length_le hl]

theorem decode_malformed (line : List Char) (h : malformed line) : decode line = none := by
  rcases h with h | ⟨r, rfl⟩ | ⟨a, w, rfl, hs, hw⟩
  · exact decode_no_semi line h
  · exact decode_empty_source r
  · exact decode_blank_target a w hs hw

theorem malformed_newline (line : List Char) (h : malformed line) :
    malformed (line ++ ['\n']) := by
  rcases h with h | ⟨r, rfl⟩ | ⟨a, w, rfl, hs, hw⟩
  · left
    have : (';' : Char) ≠ '\n' := by decide
    simp [h, this]
  · right; left
    exact ⟨r ++ ['\n'], rfl⟩
  · right; right
    refine ⟨a, w ++ ['\n'], by simp, hs, ?_⟩
    intro c hc
    rcases List.mem_append.mp hc with hc | hc
    · exact hw c hc
    · simp only [List.mem_singleton] at hc
      subst hc
      rfl

end OSA

namespace OSA.V1

theorem set_contains_iff (s : LoadedSet) (name : List Char) :
    set_contains s name = true ↔ name ∈ s := by
  induction s with
  | nil => simp [set_contains]
  | cons n ns ih =>
    by_cases h : n = name
    · simp [set_contains, h]
    · have h2 : ¬ name = n := fun e => h e.symm
      simp [set_contains, h, h2, ih]

theorem mem_set_add (s : LoadedSet) (name : List Char) : name ∈ set_add s name := by
  unfold set_add
  by_cases h : set_contains s name = true
  · rw [if_pos h]; exact (set_contains_iff s name).mp h
  · rw [if_neg h]; simp

theorem set_add_mono (s : LoadedSet) (name n : List Char) (h : n ∈ s) :
    n ∈ set_add s name := by
  unfold set_add
  split
  · exact h
  · simp [h]

theorem scan_entry_mono (s : Server) (e : Entry) (n : List Char) (h : n ∈ s.g_loaded) :
    n ∈ (scan_entry s e).g_loaded := by
  unfold scan_entry
  split
  · exact h
  · split
    · exact h
    · split
      · exact h
      · exact set_add_mono _ _ _ h

theorem scan_entries_mono (es : List Entry) (s : Server) (n : List Char)
    (h : n ∈ s.g_loaded) : n ∈ (es.foldl scan_entry s).g_loaded := by
  induction es generalizing s with
  | nil => exact h
  | cons e es ih => exact ih _ (scan_entry_mono s e n h)

theorem scan_entry_marks (s : Server) (e : Entry) (hd : isDotEntry e.d_name = false)
    (hr : e.regular = true) : e.d_name ∈ (scan_entry s e).g_loaded := by
  unfold scan_entry
  rw [if_neg (by simp [hd])]
  rw [if_neg (by simp [hr])]
  by_cases hc : set_contains s.g_loaded e.d_name = true
  · rw [if_pos hc]; exact (set_contains_iff _ _).mp hc
  · rw [if_neg hc]; exact mem_set_add _ _

theorem scan_entries_marks (es : List Entry) (s : Server) :
    ∀ e ∈ es, isDotEntry e.d_name = false → e.regular = true →
      e.d_name ∈ (es.foldl scan_entry s).g_loaded := by
  induction es generalizing s with
  | nil => intro e he; simp at he
  | cons x xs ih =>
    intro e he hd hr
    rcases List.mem_cons.mp he with rfl | hmem
    · exact scan_entries_mono xs _ _ (scan_entry_marks s e hd hr)
    · exact ih _ e hmem hd hr

theorem scan_entry_skip (s : Server) (e : Entry)
    (h : isDotEntry e.d_name = false → e.regular = true → e.d_name ∈ s.g_loaded) :
    scan_entry s e = s := by
  unfold scan_entry
  by_cases hd : isDotEntry e.d_name = true
  · rw [if_pos hd]
  · rw [if_neg hd]
    by_cases hr : e.regular = true
    · rw [if_neg (by simp [hr])]
      rw [if_pos ((set_contains_iff _ _).mpr (h (by simpa using hd) hr))]
    · rw [if_pos (by simpa using hr)]

theorem scan_entries_skip (es : List Entry) (s : Server)
    (h : ∀ e ∈ es, isDotEntry e.d_name = false → e.regular = true →
      e.d_name ∈ s.g_loaded) : es.foldl scan_entry s = s := by
  induction es with
  | nil => rfl
  | cons x xs ih =>
    rw [List.foldl_cons, scan_entry_skip s x (h x (by simp))]
    exact ih (fun e he => h e (by simp [he]))

theorem scan_and_load_twice (s : Server) (folder : Option (List Entry)) :
    scan_and_load (scan_and_load s folder) folder = scan_and_load s folder := by
  cases folder with
  | none => rfl
  | some es => exact scan_entries_skip es _ (scan_entries_marks es s)

end OSA.V1

namespace OSA.V2

theorem loaded_has_iff (s : Loaded) (name : List Char) :
    loaded_has s name = true ↔ name ∈ s := by
  induction s with
  | nil => simp [loaded_has]
  | cons n ns ih =>
    by_cases h : n = name
    · simp [loaded_has, h]
    · have h2 : ¬ name = n := fun e => h e.symm
      simp [loaded_has, h, h2, ih]

theorem mem_loaded_add (s : Loaded) (name : List Char) : name ∈ loaded_add s name := by
  unfold loaded_add
  by_cases h : loaded_has s name = true
  · rw [if_pos h]; exact (loaded_has_iff s name).mp h
  · rw [if_neg h]; simp

theorem loaded_add_mono (s : Loaded) (name n : List Char) (h : n ∈ s) :
    n ∈ loaded_add s name := by
  unfold loaded_add
  split
  · exact h
  · simp [h]

theorem writer_entry_mono (w : Writer) (e : Entry) (n : List Char) (h : n ∈ w.g_loaded) :
    n ∈ (writer_entry w e).g_loaded := by
  unfold writer_entry
  split
  · exact h
  · split
    · exact h
    · split
      · exact h
      · exact loaded_add_mono _ _ _ h

theorem writer_entries_mono (es : List Entry) (w : Writer) (n : List Char)
    (h : n ∈ w.g_loaded) : n ∈ (es.foldl writer_entry w).g_loaded := by
  induction es generalizing w with
  | nil => exact h
  | cons e es ih => exact ih _ (writer_entry_mono w e n h)

theorem writer_entry_marks (w : Writer) (e : Entry) (hd : isDotEntry e.d_name = false)
    (hr : e.regular = true) : e.d_name ∈ (writer_entry w e).g_loaded := by
  unfold writer_entry
  rw [if_neg (by simp [hd])]
  by_cases hc : loaded_has w.g_loaded e.d_name = true
  · rw [if_pos hc]; exact (loaded_has_iff _ _).mp hc
  · rw [if_neg hc, if_neg (by simp [hr])]; exact mem_loaded_add _ _

theorem writer_entries_marks (es : List Entry) (w : Writer) :
    ∀ e ∈ es, isDotEntry e.d_name = false → e.regular = true →
      e.d_name ∈ (es.foldl writer_entry w).g_loaded := by
  induction es generalizing w with
  | nil => intro e he; simp at he
  | cons x xs ih =>
    intro e he hd hr
    rcases List.mem_cons.mp he with rfl | hmem
    · exact writer_entries_mono xs _ _ (writer_entry_marks w e hd hr)
    · exact ih _ e hmem hd hr

theorem writer_entry_skip (w : Writer) (e : Entry)
    (h : isDotEntry e.d_name = false → e.regular = true → e.d_name ∈ w.g_loaded) :
    writer_entry w e = w := by
  unfold writer_entry
  by_cases hd : isDotEntry e.d_name = true
  · rw [if_pos hd]
  · rw [if_neg hd]
    by_cases hc : loaded_has w.g_loaded e.d_name = true
    · rw [if_pos hc]
    · rw [if_neg hc]
      by_cases hr : e.regular = true
      · exact absurd ((loaded_has_iff _ _).mpr (h (by simpa using hd) hr)) hc
      · rw [if_pos (by simpa using hr)]

theorem writer_entries_skip (es : List Entry) (w : Writer)
    (h : ∀ e ∈ es, isDotEntry e.d_name = false → e.regular = true →
      e.d_name ∈ w.g_loaded) : es.foldl writer_entry w = w := by
  induction es with
  | nil => rfl
  | cons x xs ih =>
    rw [List.foldl_cons, writer_entry_skip w x (h x (by simp))]
    exact ih (fun e he => h e (by simp [he]))

theorem writer_pass_twice (w : Writer) (folder : Option (List Entry)) :
    writer_pass (writer_pass w folder) folder = writer_pass w folder := by
  cases folder with
  | none => rfl
  | some es => exact writer_entries_skip es _ (writer_entries_marks es w)

theorem store_in_shm_full (s : ShmDict) (m : Msg) (h : s.cap ≤ s.count) :
    store_in_shm s m = (s, Report.full s.cap) := by
  unfold store_in_shm
  rw [if_neg (Nat.not_lt.mpr h)]

theorem store_in_shm_count (s : ShmDict) (m : Msg) (h : s.count < s.cap) :
    (store_in_shm s m).1.count = s.count + 1 ∧ (store_in_shm s m).1.cap = s.cap ∧
      (store_in_shm s m).2 = Report.stored s.count := by
  unfold store_in_shm
  rw [if_pos h]
  exact ⟨rfl, rfl, rfl⟩

theorem store_all_count (msgs : List Msg) (s : ShmDict) (h : s.count ≤ s.cap) :
    (store_all s msgs).1.count = s.count + successes (store_all s msgs).2 ∧
    (store_all s msgs).1.count ≤ s.cap ∧ (store_all s msgs).1.cap = s.cap ∧
    (store_all s msgs).1.count = min (s.count + msgs.length) s.cap ∧
    (store_all s msgs).2.length = msgs.length := by
  induction msgs generalizing s with
  | nil => simp [store_all, successes, h]
  | cons m ms ih =>
    by_cases hc : s.count < s.cap
    · obtain ⟨h1, h2, h3⟩ := store_in_shm_count s m hc
      have := ih (store_in_shm s m).1 (by rw [h1, h2]; exact hc)
      simp only [store_all, successes, h1, h2, h3, List.filter_cons, Report.isStored,
        if_true, List.length_cons] at this ⊢
      omega
    · have hfull := store_in_shm_full s m (Nat.not_lt.mp hc)
      have := ih s h
      simp only [store_all, successes, hfull, List.filter_cons, Report.isStored,
        List.length_cons] at this ⊢
      simp only [Bool.false_eq_true, if_false]
      omega

theorem slot_set (c cap : Nat) (data : List WordPair) (i : Nat) (x : WordPair)
    (h : i < data.length) : slot ⟨c, cap, data.set i x⟩ i = x := by
  simp [slot, List.getD_eq_getElem?_getD, h]

theorem slot_set_ne (c cap : Nat) (data : List WordPair) (i j : Nat) (x : WordPair)
    (h : i ≠ j) : slot ⟨c, cap, data.set i x⟩ j = slot ⟨c, cap, data⟩ j := by
  simp [slot, List.getD_eq_getElem?_getD, List.getElem?_set_ne h]

theorem store_trace_eq (s : ShmDict) (m : Msg) (hc : s.count < s.cap)
    (hd : s.count < s.data.length) :
    store_trace s m =
      [s,
       ⟨s.count + 1, s.cap, s.data⟩,
       ⟨s.count + 1, s.cap, s.data.set s.count
          ⟨strncpy (slot s s.count).english m.english (WORD_LEN - 1),
           (slot s s.count).french⟩⟩,
       ⟨s.count + 1, s.cap, s.data.set s.count
          ⟨copy_field (slot s s.count).english m.english, (slot s s.count).french⟩⟩,
       ⟨s.count + 1, s.cap, s.data.set s.count
          ⟨copy_field (slot s s.count).english m.english,
           strncpy (slot s s.count).french m.french (WORD_LEN - 1)⟩⟩,
       ⟨s.count + 1, s.cap, s.data.set s.count
          ⟨copy_field (slot s s.count).english m.english,
           copy_field (slot s s.count).french m.french⟩⟩] := by
  have e0 : slot ⟨s.count + 1, s.cap, s.data⟩ s.count = slot s s.count := rfl
  unfold store_trace
  rw [if_pos hc]
  simp only [step_bump, step_copy_english, step_end_english, step_copy_french,
    step_end_french, e0, slot_set _ _ _ _ _ hd, List.set_set, copy_field]

theorem store_in_shm_last (s : ShmDict) (m : Msg) :
    (store_trace s m).getLast? = some (store_in_shm s m).1 := by
  unfold store_trace store_in_shm
  split <;> rfl

theorem store_in_shm_eq (s : ShmDict) (m : Msg) (hc : s.count < s.cap)
    (hd : s.count < s.data.length) :
    (store_in_shm s m).1 =
      ⟨s.count + 1, s.cap, s.data.set s.count
          ⟨copy_field (slot s s.count).english m.english,
           copy_field (slot s s.count).french m.french⟩⟩ := by
  have h := store_in_shm_last s m
  rw [store_trace_eq s m hc hd] at h
  simpa using h.symm

theorem written_eq (m : Msg) (e f : List Char) (he : e.length = WORD_LEN)
    (hf : f.length = WORD_LEN) :
    (⟨copy_field e m.english, copy_field f m.french⟩ : WordPair) = written m := by
  rw [copy_field_eq e _ he, copy_field_eq f _ hf]
  rfl

theorem take_set_of_le (data : List WordPair) (i n : Nat) (x : WordPair) (h : n ≤ i) :
    (data.set i x).take n = data.take n := by
  apply List.ext_getElem?
  intro k
  by_cases hk : k < n
  · rw [List.getElem?_take_of_lt hk, List.getElem?_take_of_lt hk,
      List.getElem?_set_ne (by omega)]
  · rw [List.getElem?_take_eq_none (by omega), List.getElem?_take_eq_none (by omega)]

theorem take_succ_set (data : List WordPair) (i : Nat) (x : WordPair)
    (h : i < data.length) : (data.set i x).take (i + 1) = data.take i ++ [x] := by
  rw [List.take_succ, take_set_of_le _ _ _ _ (Nat.le_refl _)]
  simp [h]

end OSA.V2

namespace OSA

theorem take_min_length (s : List Char) (n : Nat) : s.take (min s.length n) = s.take n := by
  rcases Nat.le_total s.length n with h | h
  · rw [Nat.min_eq_left h, List.take_length, List.take_of_length_le h]
  · rw [Nat.min_eq_right h]

theorem field_holds_copy (dst src : List Char) (h : dst.length = WORD_LEN) :
    field_holds (copy_field dst src) (cstr src) := by
  have hl : ((cstr src).take (WORD_LEN - 1)).length ≤ WORD_LEN - 1 := by
    rw [List.length_take]; exact Nat.min_le_left _ _
  refine ⟨length_copy_field dst src h, ?_, ?_, ?_⟩
  · rw [copy_field_eq dst src h]
    generalize (cstr src).take (WORD_LEN - 1) = s at hl
    have h49 : WORD_LEN - 1 = s.length + (WORD_LEN - 1 - s.length) := by omega
    have hW : 1 ≤ WORD_LEN := by decide
    rw [List.get?_eq_getElem?, List.getElem?_append_right hl, List.getElem?_replicate]
    rw [if_pos (by omega)]
  · unfold strlen; rw [cstr_copy_field]; exact hl
  · rw [cstr_copy_field, take_min_length]

theorem field_holds_copy_cstr (dst src : List Char) (h : dst.length = WORD_LEN)
    (hn : NUL ∉ src) : field_holds (copy_field dst src) src := by
  have := field_holds_copy dst src h
  rwa [cstr_of_not_mem hn] at this

theorem length_uninit_field : uninit_field.length = WORD_LEN := by
  simp [uninit_field]

theorem decode_some_not_mem {line a b : List Char} (h : decode line = some (a, b)) :
    NUL ∉ a ∧ NUL ∉ b ∧ a ≠ [] ∧ b ≠ [] := by
  unfold decode at h
  cases hs : strchr (rtrim line) ';' with
  | none => simp [hs] at h
  | some i =>
    simp only [hs] at h
    split at h
    · rename_i hc
      simp only [Option.some.injEq, Prod.mk.injEq] at h
      obtain ⟨rfl, rfl⟩ := h
      exact ⟨fun h => not_mem_rtrim line (List.mem_of_mem_take h),
        fun h => not_mem_rtrim line (List.mem_of_mem_drop h), hc.1, hc.2⟩
    · simp at h

end OSA

namespace OSA.V2

theorem send_pair_eq (en fr : List Char) :
    send_pair en fr =
      [⟨EN_FR, copy_field uninit_field en, copy_field uninit_field fr⟩,
       ⟨FR_EN, copy_field uninit_field fr, copy_field uninit_field en⟩] := by
  unfold send_pair
  simp only
  rw [copy_field_any_dst (copy_field uninit_field en) fr
      (length_copy_field _ _ length_uninit_field),
    copy_field_any_dst (copy_field uninit_field fr) en
      (length_copy_field _ _ length_uninit_field)]

theorem load_lines_length (lines : List (List Char)) (st : List Msg × Nat) :
    (lines.foldl load_line st).1.length =
        st.1.length + 2 * (lines.filter (fun l => (decode l).isSome)).length ∧
      (lines.foldl load_line st).2 =
        st.2 + (lines.filter (fun l => (decode l).isSome)).length := by
  induction lines generalizing st with
  | nil => simp
  | cons l ls ih =>
    rw [List.foldl_cons, load_line_send]
    cases hd : decode l with
    | none =>
      have := ih st
      simpa [hd] using this
    | some p =>
      have := ih (st.1 ++ send_pair p.1 p.2, st.2 + 1)
      simp only [List.filter_cons, hd, Option.isSome_some, if_true, List.length_cons]
      rw [this.1, this.2]
      simp only [List.length_append, send_pair, List.length_cons, List.length_nil]
      omega

end OSA.V2

namespace OSA.V1

theorem out_en_fr_ne_empty (a b : List Char) : out_en_fr a b ≠ out_empty := by
  have h1 : "[EN->FR]  ".toList = '[' :: 'E' :: "N->FR]  ".toList := by decide
  have h2 : out_empty = '[' :: 't' :: "ranslate] Dictionary empty.\n".toList := by decide
  unfold out_en_fr
  rw [h1, h2]
  intro h
  simp only [List.cons_append, List.cons.injEq, true_and] at h
  exact absurd h.1 (by decide)

theorem out_fr_en_ne_empty (a b : List Char) : out_fr_en a b ≠ out_empty := by
  have h1 : "[FR->EN]  ".toList = '[' :: 'F' :: "R->EN]  ".toList := by decide
  have h2 : out_empty = '[' :: 't' :: "ranslate] Dictionary empty.\n".toList := by decide
  unfold out_fr_en
  rw [h1, h2]
  intro h
  simp only [List.cons_append, List.cons.injEq, true_and] at h
  exact absurd h.1 (by decide)

theorem dict_at_valid (d : Dict) (r : Nat) (h : d ≠ []) :
    r % d.length < d.length ∧ d.get? (r % d.length) = some (dict_at d (r % d.length)) := by
  have hpos : 0 < d.length := List.length_pos.mpr h
  have hlt := Nat.mod_lt r hpos
  refine ⟨hlt, ?_⟩
  simp [dict_at, List.getD_eq_getElem?_getD, hlt]

theorem handle_eng2fr_pending (s : Server) (r : Nat) (h : s.g_req_eng2fr ≠ 0) :
    handle_eng2fr s r =
      ({ s with g_req_eng2fr := 0 },
        if s.g_dict = [] then [out_empty]
        else [out_en_fr (dict_at s.g_dict (r % s.g_dict.length)).english
          (dict_at s.g_dict (r % s.g_dict.length)).french]) := by
  unfold handle_eng2fr
  rw [if_pos h]
  by_cases hd : s.g_dict = []
  · simp [hd]
  · have : s.g_dict.length ≠ 0 := fun e => hd (List.length_eq_zero.mp e)
    simp [hd, this]

theorem handle_fr2eng_pending (s : Server) (r : Nat) (h : s.g_req_fr2eng ≠ 0) :
    handle_fr2eng s r =
      ({ s with g_req_fr2eng := 0 },
        if s.g_dict = [] then [out_empty]
        else [out_fr_en (dict_at s.g_dict (r % s.g_dict.length)).french
          (dict_at s.g_dict (r % s.g_dict.length)).english]) := by
  unfold handle_fr2eng
  rw [if_pos h]
  by_cases hd : s.g_dict = []
  · simp [hd]
  · have : s.g_dict.length ≠ 0 := fun e => hd (List.length_eq_zero.mp e)
    simp [hd, this]

theorem handle_eng2fr_clear (s : Server) (r : Nat) (h : s.g_req_eng2fr = 0) :
    handle_eng2fr s r = (s, []) := by
  unfold handle_eng2fr
  rw [if_neg (by simp [h])]

theorem handle_fr2eng_clear (s : Server) (r : Nat) (h : s.g_req_fr2eng = 0) :
    handle_fr2eng s r = (s, []) := by
  unfold handle_fr2eng
  rw [if_neg (by simp [h])]

theorem deliver_usr1_eq (n : Nat) (s : Server) (hn : 1 ≤ n) :
    deliver_usr1 n s = sigusr1_handler s := by
  unfold deliver_usr1
  induction n with
  | zero => omega
  | succ k ih =>
    rw [Function.iterate_succ_apply']
    cases k with
    | zero => rfl
    | succ j => rw [ih (by omega)]; rfl

theorem deliver_usr2_eq (n : Nat) (s : Server) (hn : 1 ≤ n) :
    deliver_usr2 n s = sigusr2_handler s := by
  unfold deliver_usr2
  induction n with
  | zero => omega
  | succ k ih =>
    rw [Function.iterate_succ_apply']
    cases k with
    | zero => rfl
    | succ j => rw [ih (by omega)]; rfl

end OSA.V1

namespace OSA.V3

theorem build_request_fields (me : Nat) (dir word : List Char) (r : RequestMsg)
    (h : build_request me dir word = some r) :
    r.reply_to = me ∧ (r.mtype = REQ_EN_FR ∨ r.mtype = REQ_FR_EN) := by
  unfold build_request at h
  simp only at h
  split at h
  · simp only [Option.some.injEq] at h
    subst h
    exact ⟨rfl, Or.inl rfl⟩
  · split at h
    · simp only [Option.some.injEq] at h
      subst h
      exact ⟨rfl, Or.inr rfl⟩
    · simp at h

theorem take_first_some (q : List QMsg) (t : Nat) (m : QMsg) (q1 : List QMsg)
    (h : take_first q t = some (m, q1)) :
    m.mtype = t ∧ ∃ a b, q = a ++ m :: b ∧ q1 = a ++ b ∧ ∀ x ∈ a, x.mtype ≠ t := by
  induction q generalizing m q1 with
  | nil => simp [take_first] at h
  | cons x xs ih =>
    unfold take_first at h
    by_cases hx : x.mtype = t
    · rw [if_pos hx] at h
      simp only [Option.some.injEq, Prod.mk.injEq] at h
      obtain ⟨rfl, rfl⟩ := h
      exact ⟨hx, [], xs, rfl, rfl, by simp⟩
    · rw [if_neg hx] at h
      simp only [Option.map_eq_some'] at h
      obtain ⟨⟨m1, q2⟩, hr, he⟩ := h
      simp only [Prod.mk.injEq] at he
      obtain ⟨rfl, rfl⟩ := he
      obtain ⟨h1, a, b, h2, h3, h4⟩ := ih m1 q2 hr
      refine ⟨h1, x :: a, b, by simp [h2], by simp [h3], ?_⟩
      intro y hy
      rcases List.mem_cons.mp hy with rfl | hy
      · exact hx
      · exact h4 y hy

theorem take_first_of_mem (q : List QMsg) (t : Nat) (m : QMsg) (hm : m ∈ q)
    (ht : m.mtype = t) : ∃ m1 q1, take_first q t = some (m1, q1) := by
  induction q with
  | nil => simp at hm
  | cons x xs ih =>
    unfold take_first
    by_cases hx : x.mtype = t
    · rw [if_pos hx]; exact ⟨_, _, rfl⟩
    · rw [if_neg hx]
      rcases List.mem_cons.mp hm with rfl | hmem
      · exact absurd ht hx
      · obtain ⟨m1, q1, h⟩ := ih hmem
        rw [h]; exact ⟨_, _, rfl⟩

theorem msgrcv_pos (q : List QMsg) (t : Nat) (ht : 0 < t) : msgrcv q t = take_first q t := by
  unfold msgrcv
  rw [if_neg (Nat.pos_iff_ne_zero.mp ht)]

theorem msgrcv_some (q : List QMsg) (t : Nat) (ht : 0 < t) (m : QMsg) (q1 : List QMsg)
    (h : msgrcv q t = some (m, q1)) :
    m.mtype = t ∧ ∃ a b, q = a ++ m :: b ∧ q1 = a ++ b ∧ ∀ x ∈ a, x.mtype ≠ t := by
  rw [msgrcv_pos q t ht] at h
  exact take_first_some q t m q1 h

theorem msgrcv_of_mem (q : List QMsg) (t : Nat) (ht : 0 < t) (m : QMsg) (hm : m ∈ q)
    (hmt : m.mtype = t) : ∃ m1 q1, msgrcv q t = some (m1, q1) := by
  rw [msgrcv_pos q t ht]
  exact take_first_of_mem q t m hm hmt

end OSA.V3

/-! ## The claims -/

namespace OSA

/-- C1 (amended): a buffer `a;b` followed by any run `w` of the bytes `rtrim` strips
(such as the newline `fgets` keeps), where `a` and `b` are non-empty, hold no NUL and
are at most 49 bytes long, `a` holds no `;` and `b` does not end in a byte `rtrim`
strips, decodes to exactly one pair with source `a` and target `b`: version 1 pushes
one record whose fields read `a` and `b`; version 2 counts one line and hands
`send_pair` the sides `a` and `b`, whose first message reads `a`, `b`.  When neither
side holds a newline, the file made of the one line `a;b` loads in the same way. -/
theorem c1_valid_line_decodes (a b w : List Char) (d : V1.Dict) (st : List V2.Msg × Nat)
    (ha : a ≠ []) (hb : b ≠ []) (hsemi : ';' ∉ a) (hna : NUL ∉ a) (hnb : NUL ∉ b)
    (hlast : isTrimChar (b.getLastD NUL) = false) (hw : ∀ c ∈ w, isTrimChar c = true)
    (hla : a.length ≤ WORD_LEN - 1) (hlb : b.length ≤ WORD_LEN - 1) :
    (∃ wp, V1.load_line d (a ++ ';' :: b ++ w) = d ++ [wp] ∧
      cstr wp.english = a ∧ cstr wp.french = b) ∧
    (∃ m1 m2, V2.load_line st (a ++ ';' :: b ++ w) = (st.1 ++ [m1, m2], st.2 + 1) ∧
      V2.send_pair a b = [m1, m2] ∧
      m1.mtype = V2.EN_FR ∧ cstr m1.english = a ∧ cstr m1.french = b ∧
      m2.mtype = V2.FR_EN ∧ cstr m2.english = b ∧ cstr m2.french = a) ∧
    ('\n' ∉ a → '\n' ∉ b →
      (∃ wp, V1.load_file_into_dict d (some (a ++ ';' :: b ++ ['\n'])) = d ++ [wp] ∧
        cstr wp.english = a ∧ cstr wp.french = b) ∧
      V2.load_file (some (a ++ ';' :: b ++ ['\n'])) = (V2.send_pair a b, 1)) := by
  have hdec : ∀ w : List Char, (∀ c ∈ w, isTrimChar c = true) →
      decode (a ++ ';' :: b ++ w) = some (a, b) := fun w hw =>
    decode_valid a b w ha hb hsemi hna hnb
      (by rw [← getLastD_eq_getLast b hb NUL]; exact hlast) hw
  refine ⟨?_, ?_, ?_⟩
  · refine ⟨⟨copy_field uninit_field a, copy_field uninit_field b⟩, ?_, ?_, ?_⟩
    · rw [V1.load_line_push, hdec w hw]; rfl
    · exact cstr_copy_field_short _ a hna hla
    · exact cstr_copy_field_short _ b hnb hlb
  · refine ⟨_, _, ?_, rfl, rfl, ?_, ?_, rfl, ?_, ?_⟩
    · rw [V2.load_line_send, hdec w hw]; rfl
    · exact cstr_copy_field_short _ a hna hla
    · exact cstr_copy_field_short _ b hnb hlb
    · exact cstr_copy_field_short _ b hnb hlb
    · exact cstr_copy_field_short _ a hna hla
  · intro hnla hnlb
    have hnl : '\n' ∉ a ++ ';' :: b := by
      have : ('\n' : Char) ≠ ';' := by decide
      simp [hnla, hnlb, this]
    have hlen : (a ++ ';' :: b).length + 2 ≤ LINE_BUF := by
      have h1 : WORD_LEN - 1 = 49 := rfl
      have h2 : LINE_BUF = 256 := rfl
      rw [h1] at hla hlb
      rw [List.length_append, List.length_cons, h2]
      omega
    have hfile : fgetsAll LINE_BUF (a ++ ';' :: b ++ ['\n']) = [a ++ ';' :: b ++ ['\n']] := by
      have := fgetsAll_line LINE_BUF (a ++ ';' :: b) [] hnl hlen
      simpa [fgetsAll, fgetsFrom] using this
    have hd1 := hdec ['\n'] (by decide)
    constructor
    · refine ⟨⟨copy_field uninit_field a, copy_field uninit_field b⟩, ?_,
        cstr_copy_field_short _ a hna hla, cstr_copy_field_short _ b hnb hlb⟩
      simp only [V1.load_file_into_dict, hfile, List.foldl_cons, List.foldl_nil]
      rw [V1.load_line_push, hd1]; rfl
    · simp only [V2.load_file, hfile, List.foldl_cons, List.foldl_nil]
      rw [V2.load_line_send, hd1]; rfl

/-- C1 witness: the line `hello;bonjour` with its newline. -/
theorem c1_valid_line_decodes_witness :
    (∃ wp, V1.load_line [] ("hello".toList ++ ';' :: "bonjour".toList ++ ['\n']) = [] ++ [wp] ∧
      cstr wp.english = "hello".toList ∧ cstr wp.french = "bonjour".toList) ∧
    V2.load_file (some ("hello".toList ++ ';' :: "bonjour".toList ++ ['\n'])) =
      (V2.send_pair "hello".toList "bonjour".toList, 1) :=
  have h := c1_valid_line_decodes "hello".toList "bonjour".toList ['\n'] [] ([], 0)
    (by decide) (by decide) (by decide) (by decide) (by decide) (by decide) (by decide)
    (by decide) (by decide)
  ⟨h.1, (h.2.2 (by decide) (by decide)).2⟩

/-- C1 counterexample: in the line `a; ` both sides are non-empty and the source has
no `;`, yet no pair is decoded (version 1 pushes nothing, version 2 sends nothing);
and a 50 byte source before `;y` is stored as its first 49 bytes, not as itself. -/
theorem c1_counterexample :
    ("a".toList ≠ [] ∧ " ".toList ≠ [] ∧ ';' ∉ "a".toList ∧
      V1.load_line [] ("a".toList ++ ';' :: " ".toList) = [] ∧
      V2.load_line ([], 0) ("a".toList ++ ';' :: " ".toList) = ([], 0)) ∧
    (';' ∉ List.replicate 50 'x' ∧
      (V1.load_line [] (List.replicate 50 'x' ++ ';' :: "y".toList)).map
        (fun wp => (cstr wp.english, cstr wp.french)) =
        [(List.replicate 49 'x', "y".toList)] ∧
      List.replicate 49 'x' ≠ List.replicate 50 'x') := by
  decide

/-- C2 (amended): a buffer with no `;`, or that starts with `;` (empty source side),
or of the form `a;w` with no `;` in `a` and `w` made only of the bytes `rtrim` strips
(target side empty once trimmed), yields no pair: version 1 pushes nothing, version 2
sends nothing and does not count the line, and the loop goes on with the buffers
that follow exactly as if the line were not there.  In a file, such a line of at
most 254 bytes followed by its newline is skipped and the rest of the file is
loaded as if the line were absent. -/
theorem c2_malformed_line_skipped (line : List Char) (d : V1.Dict)
    (st : List V2.Msg × Nat) (rest : List (List Char)) (more : List Char)
    (h : malformed line) :
    V1.load_line d line = d ∧ V2.load_line st line = st ∧
    (line :: rest).foldl V1.load_line d = rest.foldl V1.load_line d ∧
    (line :: rest).foldl V2.load_line st = rest.foldl V2.load_line st ∧
    ('\n' ∉ line → line.length + 2 ≤ LINE_BUF →
      V1.load_file_into_dict d (some (line ++ '\n' :: more)) =
        V1.load_file_into_dict d (some more) ∧
      V2.load_file (some (line ++ '\n' :: more)) = V2.load_file (some more)) := by
  have hdec : decode line = none := decode_malformed line h
  have h1 : V1.load_line d line = d := by rw [V1.load_line_push, hdec]
  have h2 : V2.load_line st line = st := by rw [V2.load_line_send, hdec]
  refine ⟨h1, h2, by rw [List.foldl_cons, h1], by rw [List.foldl_cons, h2], ?_⟩
  intro hnl hlen
  have hdec2 : decode (line ++ ['\n']) = none :=
    decode_malformed _ (malformed_newline line h)
  have hfile := fgetsAll_line LINE_BUF line more hnl hlen
  constructor
  · simp only [V1.load_file_into_dict, hfile, List.foldl_cons]
    rw [V1.load_line_push, hdec2]
  · simp only [V2.load_file, hfile, List.foldl_cons]
    rw [V2.load_line_send, hdec2]

/-- C2 witness: the line `chat; `, whose target side is blank, followed by the good
line `a;b`. -/
theorem c2_malformed_line_skipped_witness :
    malformed "chat; ".toList ∧
    V1.load_line [] "chat; ".toList = [] ∧
    V1.load_file_into_dict [] (some ("chat; ".toList ++ '\n' :: "a;b\n".toList)) =
      V1.load_file_into_dict [] (some "a;b\n".toList) ∧
    V2.load_file (some ("chat; ".toList ++ '\n' :: "a;b\n".toList)) =
      V2.load_file (some "a;b\n".toList) :=
  have h : malformed "chat; ".toList :=
    Or.inr (Or.inr ⟨"chat".toList, " ".toList, by decide, by decide, by decide⟩)
  have t := c2_malformed_line_skipped "chat; ".toList [] ([], 0) [] "a;b\n".toList h
  ⟨h, t.1, (t.2.2.2.2 (by decide) (by decide)).1, (t.2.2.2.2 (by decide) (by decide)).2⟩

/-- C2 counterexample: in the line ` ;b` the source side is a single blank, which is
empty once whitespace is trimmed, yet a pair is decoded: version 1 pushes a record
whose source reads as that blank, and version 2 sends two messages. -/
theorem c2_counterexample :
    rtrim " ".toList = [] ∧ (∀ c ∈ " ".toList, isTrimChar c = true) ∧
    (V1.load_line [] " ;b\n".toList).map (fun wp => (cstr wp.english, cstr wp.french)) =
      [(" ".toList, "b".toList)] ∧
    (V2.load_line ([], 0) " ;b\n".toList).1.length = 2 := by
  decide

/-- C3: a second scan of an unchanged folder changes nothing.  For every folder
(any list of entries, or a directory that cannot be opened), every dictionary and
every loaded-file set, `scan_and_load` run twice leaves the same state as run once,
so the dictionary is the same; and a second pass of `writer_thread` leaves the same
loaded set and the same list of sent messages, so it sends nothing. -/
theorem c3_second_scan_ingests_nothing (folder : Option (List Entry)) (s : V1.Server)
    (w : V2.Writer) :
    V1.scan_and_load (V1.scan_and_load s folder) folder = V1.scan_and_load s folder ∧
    (V1.scan_and_load (V1.scan_and_load s folder) folder).g_dict =
      (V1.scan_and_load s folder).g_dict ∧
    V2.writer_pass (V2.writer_pass w folder) folder = V2.writer_pass w folder ∧
    (V2.writer_pass (V2.writer_pass w folder) folder).sent =
      (V2.writer_pass w folder).sent := by
  refine ⟨V1.scan_and_load_twice s folder, ?_, V2.writer_pass_twice w folder, ?_⟩
  · rw [V1.scan_and_load_twice]
  · rw [V2.writer_pass_twice]

/-- C4: for every capacity `cap`, every initial content of the array and every
sequence of messages appended through `store_in_shm` from `count = 0`, the final
`count` equals the number of appends reported as stored, equals
`min (number of appends) cap`, never exceeds `cap` (the sequence being arbitrary,
this holds after each of its prefixes), and `cap` is unchanged; an append made when
`count = cap` reports `SHM full` and returns the very same state.  With capacity 2,
three appends leave `count = 2` and report stored, stored, full. -/
theorem c4_count_and_capacity (cap : Nat) (data : List WordPair) (msgs : List V2.Msg)
    (m m1 m2 m3 : V2.Msg) :
    (V2.store_all ⟨0, cap, data⟩ msgs).1.count =
      V2.successes (V2.store_all ⟨0, cap, data⟩ msgs).2 ∧
    (V2.store_all ⟨0, cap, data⟩ msgs).1.count ≤ cap ∧
    (V2.store_all ⟨0, cap, data⟩ msgs).1.count = min msgs.length cap ∧
    (V2.store_all ⟨0, cap, data⟩ msgs).1.cap = cap ∧
    V2.store_in_shm ⟨cap, cap, data⟩ m = (⟨cap, cap, data⟩, V2.Report.full cap) ∧
    (V2.store_all ⟨0, 2, data⟩ [m1, m2, m3]).1.count = 2 ∧
    (V2.store_all ⟨0, 2, data⟩ [m1, m2, m3]).2 =
      [V2.Report.stored 0, V2.Report.stored 1, V2.Report.full 2] ∧
    V2.store_all ⟨0, 2, data⟩ [m1, m2, m3] =
      ((V2.store_all ⟨0, 2, data⟩ [m1, m2]).1,
        (V2.store_all ⟨0, 2, data⟩ [m1, m2]).2 ++ [V2.Report.full 2]) := by
  have h := V2.store_all_count msgs ⟨0, cap, data⟩ (Nat.zero_le _)
  refine ⟨?_, h.2.1, ?_, h.2.2.1, V2.store_in_shm_full _ m (Nat.le_refl _), ?_, ?_, ?_⟩
  · simpa using h.1
  · simpa using h.2.2.2.1
  · simp [V2.store_all, V2.store_in_shm, V2.step_bump, V2.step_copy_english,
      V2.step_end_english, V2.step_copy_french, V2.step_end_french]
  · simp [V2.store_all, V2.store_in_shm, V2.step_bump, V2.step_copy_english,
      V2.step_end_english, V2.step_copy_french, V2.step_end_french]
  · simp [V2.store_all, V2.store_in_shm, V2.step_bump, V2.step_copy_english,
      V2.step_end_english, V2.step_copy_french, V2.step_end_french]

/-- C5 (amended): when there is room (`count < cap`, the slot at `count` being one of
the array, with 50 byte fields), `store_in_shm` increments `count` in its first
update, before the slot is written: the state right after it has `count` one higher
and the array untouched.  During the append `count` is at most one ahead of the old
value, `cap` and the slots below the old `count` are never touched, and when the
append is over (the lock is released) the slot holds the completed record and the
first `count` slots are again exactly the completed records of the messages stored
so far. -/
theorem c5_count_bumped_before_write (s : V2.ShmDict) (m : V2.Msg) (hist : List V2.Msg)
    (hc : s.count < s.cap) (hd : s.count < s.data.length)
    (he : (V2.slot s s.count).english.length = WORD_LEN)
    (hf : (V2.slot s s.count).french.length = WORD_LEN)
    (hcons : V2.consistent s hist) :
    (∃ s2 s3 s4, V2.store_trace s m =
      [s, ⟨s.count + 1, s.cap, s.data⟩, s2, s3, s4, (V2.store_in_shm s m).1]) ∧
    (∀ st ∈ V2.store_trace s m, st.count ≤ s.count + 1 ∧ st.cap = s.cap ∧
      st.data.length = s.data.length ∧ st.data.take s.count = s.data.take s.count) ∧
    V2.slot (V2.store_in_shm s m).1 s.count = V2.written m ∧
    V2.consistent (V2.store_in_shm s m).1 (hist ++ [m]) := by
  have hfin := V2.store_in_shm_eq s m hc hd
  have htr := V2.store_trace_eq s m hc hd
  refine ⟨⟨_, _, _, by rw [htr, hfin]⟩, ?_, ?_, ?_⟩
  · intro st hst
    rw [htr] at hst
    simp only [List.mem_cons, List.mem_singleton, List.not_mem_nil, or_false] at hst
    rcases hst with rfl | rfl | rfl | rfl | rfl | rfl <;>
      simp [V2.take_set_of_le]
  · rw [hfin, V2.slot_set _ _ _ _ _ hd, V2.written_eq m _ _ he hf]
  · rw [hfin, V2.written_eq m _ _ he hf]
    refine ⟨by simp [hcons.1], ?_⟩
    simp only
    rw [V2.take_succ_set _ _ _ hd, hcons.2]
    simp

/-- C5 witness: the first append to an empty store of capacity 2. -/
theorem c5_count_bumped_before_write_witness :
    (∃ s2 s3 s4, V2.store_trace ⟨0, 2, List.replicate 2 ⟨uninit_field, uninit_field⟩⟩
        ⟨V2.EN_FR, "hi".toList, "yo".toList⟩ =
      [⟨0, 2, List.replicate 2 ⟨uninit_field, uninit_field⟩⟩,
       ⟨0 + 1, 2, List.replicate 2 ⟨uninit_field, uninit_field⟩⟩, s2, s3, s4,
       (V2.store_in_shm ⟨0, 2, List.replicate 2 ⟨uninit_field, uninit_field⟩⟩
         ⟨V2.EN_FR, "hi".toList, "yo".toList⟩).1]) ∧
    V2.consistent (V2.store_in_shm ⟨0, 2, List.replicate 2 ⟨uninit_field, uninit_field⟩⟩
      ⟨V2.EN_FR, "hi".toList, "yo".toList⟩).1
      ([] ++ [⟨V2.EN_FR, "hi".toList, "yo".toList⟩]) :=
  have h := c5_count_bumped_before_write
    ⟨0, 2, List.replicate 2 ⟨uninit_field, uninit_field⟩⟩
    ⟨V2.EN_FR, "hi".toList, "yo".toList⟩ [] (by decide) (by decide) (by decide) (by decide)
    ⟨rfl, rfl⟩
  ⟨h.1, h.2.2.2⟩

/-- C5 counterexample: appending `hi`/`yo` to an empty store of capacity 2, the state
right after the first update has `count = 1` while slot 0, an index below `count`,
still holds what it held before the append and not the record being appended. -/
theorem c5_counterexample :
    ∃ st ∈ V2.store_trace ⟨0, 2, List.replicate 2 ⟨uninit_field, uninit_field⟩⟩
        ⟨V2.EN_FR, "hi".toList, "yo".toList⟩,
      st.count = 1 ∧ V2.slot st 0 = ⟨uninit_field, uninit_field⟩ ∧
        V2.slot st 0 ≠ V2.written ⟨V2.EN_FR, "hi".toList, "yo".toList⟩ :=
  ⟨⟨1, 2, List.replicate 2 ⟨uninit_field, uninit_field⟩⟩, by decide, by decide, by decide,
    by decide⟩

/-- C6 (amended): for every pair of sides `(en, fr)`, `send_pair` hands `msgsnd`
exactly two messages, in this order: one with `mtype = EN_FR` whose `english` reads
as the first 49 bytes of `en` and whose `french` reads as the first 49 bytes of `fr`,
then one with `mtype = FR_EN` carrying the same two strings with the fields swapped;
a side of at most 49 bytes is carried whole.  A file sends twice as many messages as
it has accepted lines, which is also twice the counter `sent` that `load_file`
prints. -/
theorem c6_two_messages_per_pair (en fr : List Char) (content : Option (List Char))
    (bytes : List Char) :
    (∃ m1 m2, V2.send_pair en fr = [m1, m2] ∧
      m1.mtype = V2.EN_FR ∧ cstr m1.english = (cstr en).take (WORD_LEN - 1) ∧
      cstr m1.french = (cstr fr).take (WORD_LEN - 1) ∧
      m2.mtype = V2.FR_EN ∧ cstr m2.english = (cstr fr).take (WORD_LEN - 1) ∧
      cstr m2.french = (cstr en).take (WORD_LEN - 1) ∧
      m2.english = m1.french ∧ m2.french = m1.english ∧
      (NUL ∉ en → en.length ≤ WORD_LEN - 1 → cstr m1.english = en ∧ cstr m2.french = en) ∧
      (NUL ∉ fr → fr.length ≤ WORD_LEN - 1 → cstr m1.french = fr ∧ cstr m2.english = fr)) ∧
    (V2.load_file content).1.length = 2 * (V2.load_file content).2 ∧
    (V2.load_file (some bytes)).1.length =
      2 * ((fgetsAll LINE_BUF bytes).filter (fun l => (decode l).isSome)).length := by
  refine ⟨⟨_, _, V2.send_pair_eq en fr, rfl, cstr_copy_field _ _, cstr_copy_field _ _, rfl,
    cstr_copy_field _ _, cstr_copy_field _ _, rfl, rfl, ?_, ?_⟩, ?_, ?_⟩
  · intro hn hl
    exact ⟨cstr_copy_field_short _ en hn hl, cstr_copy_field_short _ en hn hl⟩
  · intro hn hl
    exact ⟨cstr_copy_field_short _ fr hn hl, cstr_copy_field_short _ fr hn hl⟩
  · cases content with
    | none => rfl
    | some b =>
      have := V2.load_lines_length (fgetsAll LINE_BUF b) ([], 0)
      simp only [V2.load_file]
      rw [this.1, this.2]
      simp
  · have := V2.load_lines_length (fgetsAll LINE_BUF bytes) ([], 0)
    simp only [V2.load_file]
    rw [this.1]
    simp

/-- C6 witness: the pair `hello`/`bonjour` is carried whole in both messages. -/
theorem c6_two_messages_per_pair_witness :
    ∃ m1 m2, V2.send_pair "hello".toList "bonjour".toList = [m1, m2] ∧
      m1.mtype = V2.EN_FR ∧ m2.mtype = V2.FR_EN ∧
      (cstr m1.english = "hello".toList ∧ cstr m2.french = "hello".toList) ∧
      (cstr m1.french = "bonjour".toList ∧ cstr m2.english = "bonjour".toList) :=
  match (c6_two_messages_per_pair "hello".toList "bonjour".toList none []).1 with
  | ⟨m1, m2, h, h1, _, _, h2, _, _, _, _, he, hf⟩ =>
    ⟨m1, m2, h, h1, h2, he (by decide) (by decide), hf (by decide) (by decide)⟩

/-- C6 counterexample: the line made of 50 letters `x`, then `;y`, is accepted by
`load_file` with the 50 byte source side, and the `EN_FR` message `send_pair` sends
for it carries the first 49 bytes only, which is not that side. -/
theorem c6_counterexample :
    V2.load_line ([], 0) (List.replicate 50 'x' ++ ";y\n".toList) =
      (V2.send_pair (List.replicate 50 'x') "y".toList, 1) ∧
    (V2.send_pair (List.replicate 50 'x') "y".toList).map
      (fun m => (m.mtype, cstr m.english, cstr m.french)) =
      [(V2.EN_FR, List.replicate 49 'x', "y".toList),
       (V2.FR_EN, "y".toList, List.replicate 49 'x')] ∧
    List.replicate 49 'x' ≠ List.replicate 50 'x' := by
  decide

/-- C7: trigger mode.  For every server state with the trigger of a direction pending
and every value `r` of `rand()`, the block that handles it leaves the dictionary
unchanged and prints exactly one line; that line is the text
`[translate] Dictionary empty.` with its newline if and only if the dictionary is
empty; otherwise `r % size` is a valid index and the line shows the pair stored
there, english then french after `[EN->FR]` and french then english after
`[FR->EN]`. -/
theorem c7_trigger_mode (s : V1.Server) (r : Nat) :
    (s.g_req_eng2fr ≠ 0 →
      (V1.handle_eng2fr s r).1.g_dict = s.g_dict ∧
      ((V1.handle_eng2fr s r).2 = ["[translate] Dictionary empty.\n".toList] ↔
        s.g_dict = []) ∧
      (s.g_dict ≠ [] → r % s.g_dict.length < s.g_dict.length ∧
        ∃ wp, s.g_dict.get? (r % s.g_dict.length) = some wp ∧
          (V1.handle_eng2fr s r).2 =
            ["[EN->FR]  ".toList ++ cstr wp.english ++ "  ->  ".toList ++
              cstr wp.french ++ "\n".toList])) ∧
    (s.g_req_fr2eng ≠ 0 →
      (V1.handle_fr2eng s r).1.g_dict = s.g_dict ∧
      ((V1.handle_fr2eng s r).2 = ["[translate] Dictionary empty.\n".toList] ↔
        s.g_dict = []) ∧
      (s.g_dict ≠ [] → r % s.g_dict.length < s.g_dict.length ∧
        ∃ wp, s.g_dict.get? (r % s.g_dict.length) = some wp ∧
          (V1.handle_fr2eng s r).2 =
            ["[FR->EN]  ".toList ++ cstr wp.french ++ "  ->  ".toList ++
              cstr wp.english ++ "\n".toList])) := by
  have htext : V1.out_empty = "[translate] Dictionary empty.\n".toList := rfl
  constructor
  · intro h
    rw [V1.handle_eng2fr_pending s r h, ← htext]
    refine ⟨rfl, ?_, ?_⟩
    · by_cases hd : s.g_dict = []
      · simp [hd]
      · simp only [hd, if_false, iff_false]
        intro e
        exact V1.out_en_fr_ne_empty _ _ (by simpa using e)
    · intro hd
      obtain ⟨h1, h2⟩ := V1.dict_at_valid s.g_dict r hd
      exact ⟨h1, _, h2, by simp only [hd, if_false]; rfl⟩
  · intro h
    rw [V1.handle_fr2eng_pending s r h, ← htext]
    refine ⟨rfl, ?_, ?_⟩
    · by_cases hd : s.g_dict = []
      · simp [hd]
      · simp only [hd, if_false, iff_false]
        intro e
        exact V1.out_fr_en_ne_empty _ _ (by simpa using e)
    · intro hd
      obtain ⟨h1, h2⟩ := V1.dict_at_valid s.g_dict r hd
      exact ⟨h1, _, h2, by simp only [hd, if_false]; rfl⟩

/-- C7 witness: both triggers pending and `rand()` = 7, first on the empty
dictionary, where each block prints the `Dictionary empty` text, then on the
two-record dictionary, where `7 % 2 = 1` picks the record `cat`/`chat`. -/
theorem c7_trigger_mode_witness :
    ((V1.handle_eng2fr ⟨[], [], 1, 1⟩ 7).2 = ["[translate] Dictionary empty.\n".toList] ∧
      (V1.handle_fr2eng ⟨[], [], 1, 1⟩ 7).2 = ["[translate] Dictionary empty.\n".toList] ∧
      (V1.handle_eng2fr ⟨[], [], 1, 1⟩ 7).1.g_dict = []) ∧
    (sample_dict2.length = 2 ∧ 7 % sample_dict2.length = 1 ∧
      (V1.handle_eng2fr ⟨sample_dict2, [], 1, 1⟩ 7).1.g_dict = sample_dict2 ∧
      (V1.handle_eng2fr ⟨sample_dict2, [], 1, 1⟩ 7).2 = ["[EN->FR]  cat  ->  chat\n".toList] ∧
      (V1.handle_fr2eng ⟨sample_dict2, [], 1, 1⟩ 7).2 = ["[FR->EN]  chat  ->  cat\n".toList] ∧
      (V1.handle_eng2fr ⟨sample_dict2, [], 1, 1⟩ 7).2 ≠
        ["[translate] Dictionary empty.\n".toList]) := by
  have he := c7_trigger_mode ⟨[], [], 1, 1⟩ 7
  have hs := c7_trigger_mode ⟨sample_dict2, [], 1, 1⟩ 7
  have hne : sample_dict2 ≠ [] := by decide
  have hget : sample_dict2.get? (7 % sample_dict2.length) =
      some ⟨copy_field uninit_field "cat".toList, copy_field uninit_field "chat".toList⟩ := by
    decide
  refine ⟨⟨((he.1 (by decide)).2.1).mpr rfl, ((he.2 (by decide)).2.1).mpr rfl,
    (he.1 (by decide)).1⟩, by decide, by decide, (hs.1 (by decide)).1, ?_, ?_, ?_⟩
  · obtain ⟨-, wp, hwp, hout⟩ := (hs.1 (by decide)).2.2 hne
    rw [hget] at hwp
    cases hwp
    rw [hout]
    decide
  · obtain ⟨-, wp, hwp, hout⟩ := (hs.2 (by decide)).2.2 hne
    rw [hget] at hwp
    cases hwp
    rw [hout]
    decide
  · intro h
    exact hne (((hs.1 (by decide)).2.1).mp h)

/-- C8: sticky trigger flags.  Any number `n ≥ 1` of deliveries of one signal leaves
the state one delivery leaves, and never touches the other flag.  A block of the main
loop that finds its flag set prints exactly one line, clears its flag and leaves the
other flag as it was; a block that finds its flag clear prints nothing and changes
nothing.  So after `n ≥ 1` deliveries of one signal on clear flags, the iteration
prints one line and leaves both flags clear, and the next iteration prints nothing. -/
theorem c8_sticky_flags (s : V1.Server) (n r1 r2 r3 r4 : Nat) (hn : 1 ≤ n) :
    (V1.deliver_usr1 n s = V1.sigusr1_handler s ∧
      V1.deliver_usr2 n s = V1.sigusr2_handler s) ∧
    ((V1.deliver_usr1 n s).g_req_eng2fr = 1 ∧
      (V1.deliver_usr1 n s).g_req_fr2eng = s.g_req_fr2eng ∧
      (V1.deliver_usr2 n s).g_req_fr2eng = 1 ∧
      (V1.deliver_usr2 n s).g_req_eng2fr = s.g_req_eng2fr) ∧
    (s.g_req_eng2fr ≠ 0 →
      (V1.handle_eng2fr s r1).2.length = 1 ∧ (V1.handle_eng2fr s r1).1.g_req_eng2fr = 0 ∧
      (V1.handle_eng2fr s r1).1.g_req_fr2eng = s.g_req_fr2eng) ∧
    (s.g_req_fr2eng ≠ 0 →
      (V1.handle_fr2eng s r2).2.length = 1 ∧ (V1.handle_fr2eng s r2).1.g_req_fr2eng = 0 ∧
      (V1.handle_fr2eng s r2).1.g_req_eng2fr = s.g_req_eng2fr) ∧
    (s.g_req_eng2fr = 0 → V1.handle_eng2fr s r1 = (s, [])) ∧
    (s.g_req_fr2eng = 0 → V1.handle_fr2eng s r2 = (s, [])) ∧
    (s.g_req_eng2fr = 0 → s.g_req_fr2eng = 0 →
      ((V1.handle_requests (V1.deliver_usr1 n s) r1 r2).2.length = 1 ∧
        (V1.handle_requests (V1.deliver_usr1 n s) r1 r2).2 =
          (V1.handle_eng2fr (V1.sigusr1_handler s) r1).2 ∧
        (V1.handle_requests (V1.deliver_usr1 n s) r1 r2).1 = s ∧
        V1.handle_requests (V1.handle_requests (V1.deliver_usr1 n s) r1 r2).1 r3 r4 =
          (s, [])) ∧
      ((V1.handle_requests (V1.deliver_usr2 n s) r1 r2).2.length = 1 ∧
        (V1.handle_requests (V1.deliver_usr2 n s) r1 r2).2 =
          (V1.handle_fr2eng (V1.sigusr2_handler s) r2).2 ∧
        (V1.handle_requests (V1.deliver_usr2 n s) r1 r2).1 = s ∧
        V1.handle_requests (V1.handle_requests (V1.deliver_usr2 n s) r1 r2).1 r3 r4 =
          (s, []))) := by
  have hlen : ∀ (c : Prop) [Decidable c] (a b : List Char),
      (if c then [a] else [b]).length = 1 := by
    intro c _ a b; split <;> rfl
  refine ⟨⟨V1.deliver_usr1_eq n s hn, V1.deliver_usr2_eq n s hn⟩, ?_, ?_, ?_, ?_, ?_, ?_⟩
  · rw [V1.deliver_usr1_eq n s hn, V1.deliver_usr2_eq n s hn]
    exact ⟨rfl, rfl, rfl, rfl⟩
  · intro h
    rw [V1.handle_eng2fr_pending s r1 h]
    exact ⟨hlen _ _ _, rfl, rfl⟩
  · intro h
    rw [V1.handle_fr2eng_pending s r2 h]
    exact ⟨hlen _ _ _, rfl, rfl⟩
  · exact V1.handle_eng2fr_clear s r1
  · exact V1.handle_fr2eng_clear s r2
  · intro h1 h2
    have hs : ({ V1.sigusr1_handler s with g_req_eng2fr := 0 } : V1.Server) = s := by
      cases s; simp only [V1.sigusr1_handler] at h1 ⊢; simp_all
    have hs2 : ({ V1.sigusr2_handler s with g_req_fr2eng := 0 } : V1.Server) = s := by
      cases s; simp only [V1.sigusr2_handler] at h2 ⊢; simp_all
    have hreq : V1.handle_requests s r3 r4 = (s, []) := by
      unfold V1.handle_requests
      simp only [V1.handle_eng2fr_clear s r3 h1, V1.handle_fr2eng_clear s r4 h2,
        List.append_nil]
    constructor
    · have e1 : V1.handle_requests (V1.deliver_usr1 n s) r1 r2 =
          (s, (V1.handle_eng2fr (V1.sigusr1_handler s) r1).2) := by
        rw [V1.deliver_usr1_eq n s hn]
        unfold V1.handle_requests
        simp only [V1.handle_eng2fr_pending (V1.sigusr1_handler s) r1 (by simp [V1.sigusr1_handler]),
          hs, V1.handle_fr2eng_clear s r2 h2, List.append_nil]
      rw [e1]
      refine ⟨?_, rfl, rfl, hreq⟩
      rw [V1.handle_eng2fr_pending (V1.sigusr1_handler s) r1 (by simp [V1.sigusr1_handler])]
      exact hlen _ _ _
    · have hcl : V1.handle_eng2fr (V1.sigusr2_handler s) r1 = (V1.sigusr2_handler s, []) :=
        V1.handle_eng2fr_clear _ r1 (by simpa [V1.sigusr2_handler] using h1)
      have e2 : V1.handle_requests (V1.deliver_usr2 n s) r1 r2 =
          (s, (V1.handle_fr2eng (V1.sigusr2_handler s) r2).2) := by
        rw [V1.deliver_usr2_eq n s hn]
        unfold V1.handle_requests
        simp only [hcl, List.nil_append,
          V1.handle_fr2eng_pending (V1.sigusr2_handler s) r2 (by simp [V1.sigusr2_handler]), hs2]
      rw [e2]
      refine ⟨?_, rfl, rfl, hreq⟩
      rw [V1.handle_fr2eng_pending (V1.sigusr2_handler s) r2 (by simp [V1.sigusr2_handler])]
      exact hlen _ _ _

/-- C8 witness: three deliveries of SIGUSR1 on clear flags. -/
theorem c8_sticky_flags_witness :
    1 ≤ 3 ∧ V1.deliver_usr1 3 ⟨sample_dict, [], 0, 0⟩ =
      V1.sigusr1_handler ⟨sample_dict, [], 0, 0⟩ ∧
    (V1.handle_requests (V1.deliver_usr1 3 ⟨sample_dict, [], 0, 0⟩) 5 6).2.length = 1 ∧
    (V1.handle_requests (V1.deliver_usr1 3 ⟨sample_dict, [], 0, 0⟩) 5 6).1 =
      ⟨sample_dict, [], 0, 0⟩ :=
  have h := c8_sticky_flags ⟨sample_dict, [], 0, 0⟩ 3 5 6 7 8 (by decide)
  have h2 := (h.2.2.2.2.2.2 rfl rfl).1
  ⟨by decide, h.1.1, h2.1, h2.2.2.1⟩

/-- C9 (amended): every request the client builds carries `reply_to` equal to its own
process ID and `mtype` `REQ_EN_FR` or `REQ_FR_EN`, and sending it keeps the queue one
whose requests all have these two types.  For every client process ID `me` (a
positive number) other than 1 and 2, the two request types, and every such queue,
the message `msgrcv` hands the
client has `mtype = me`, is a response and not a request, is the first message of
that type on the queue, and is not one addressed to any other ID; it is handed over
whenever a response addressed to `me` is on the queue.  So two clients with distinct
IDs other than 1 and 2 each receive the response addressed to them. -/
theorem c9_reply_correlation (me other : Nat) (dir word : List Char) (q : List V3.QMsg)
    (hpos : 0 < me ∧ 0 < other)
    (hme : me ≠ V3.REQ_EN_FR ∧ me ≠ V3.REQ_FR_EN)
    (hother : other ≠ V3.REQ_EN_FR ∧ other ≠ V3.REQ_FR_EN) (hne : other ≠ me)
    (hq : V3.requests_typed q) :
    (∀ r, V3.build_request me dir word = some r →
      r.reply_to = me ∧ (r.mtype = V3.REQ_EN_FR ∨ r.mtype = V3.REQ_FR_EN)) ∧
    (∀ q1, V3.client_send me dir word q = some q1 →
      V3.requests_typed q1 ∧ ∃ r, q1 = q ++ [V3.QMsg.request r] ∧ r.reply_to = me) ∧
    (∀ m q1, V3.client_receive me q = some (m, q1) →
      m.mtype = me ∧ m.mtype ≠ other ∧ (∃ resp, m = V3.QMsg.response resp) ∧
      (∀ r, m ≠ V3.QMsg.request r) ∧
      ∃ a b, q = a ++ m :: b ∧ q1 = a ++ b ∧ ∀ x ∈ a, x.mtype ≠ me) ∧
    (∀ resp, V3.QMsg.response resp ∈ q → resp.mtype = me →
      ∃ m q1, V3.client_receive me q = some (m, q1)) ∧
    (∀ m1 m2 q1 q2, V3.client_receive me q = some (m1, q1) →
      V3.client_receive other q = some (m2, q2) →
      (∃ resp, m1 = V3.QMsg.response resp ∧ resp.mtype = me) ∧
      (∃ resp, m2 = V3.QMsg.response resp ∧ resp.mtype = other) ∧ m1 ≠ m2) := by
  have key : ∀ (p : Nat), 0 < p → p ≠ V3.REQ_EN_FR ∧ p ≠ V3.REQ_FR_EN → ∀ m q1,
      V3.client_receive p q = some (m, q1) →
      m.mtype = p ∧ (∃ resp, m = V3.QMsg.response resp ∧ resp.mtype = p) ∧
      ∃ a b, q = a ++ m :: b ∧ q1 = a ++ b ∧ ∀ x ∈ a, x.mtype ≠ p := by
    intro p hp0 hp m q1 h
    obtain ⟨h1, a, b, h2, h3, h4⟩ := V3.msgrcv_some q p hp0 m q1 h
    refine ⟨h1, ?_, a, b, h2, h3, h4⟩
    cases m with
    | response resp => exact ⟨resp, rfl, h1⟩
    | request r =>
      have hm : V3.QMsg.request r ∈ q := by rw [h2]; simp
      have : r.mtype = p := h1
      rcases hq r hm with e | e
      · exact absurd (this.symm.trans e) hp.1
      · exact absurd (this.symm.trans e) hp.2
  refine ⟨V3.build_request_fields me dir word, ?_, ?_, ?_, ?_⟩
  · intro q1 h
    unfold V3.client_send at h
    simp only [Option.map_eq_some'] at h
    obtain ⟨r, hr, rfl⟩ := h
    have hf := V3.build_request_fields me dir word r hr
    refine ⟨?_, r, rfl, hf.1⟩
    intro x hx
    unfold V3.msgsnd at hx
    rcases List.mem_append.mp hx with hx | hx
    · exact hq x hx
    · simp only [List.mem_singleton, V3.QMsg.request.injEq] at hx
      subst hx
      exact hf.2
  · intro m q1 h
    obtain ⟨h1, ⟨resp, h2, -⟩, h3⟩ := key me hpos.1 hme m q1 h
    refine ⟨h1, by rw [h1]; exact fun e => hne e.symm, ⟨resp, h2⟩, ?_, h3⟩
    intro r e
    rw [h2] at e
    exact V3.QMsg.noConfusion e
  · intro resp hmem ht
    exact V3.msgrcv_of_mem q me hpos.1 _ hmem ht
  · intro m1 m2 q1 q2 h1 h2
    obtain ⟨e1, r1, -⟩ := key me hpos.1 hme m1 q1 h1
    obtain ⟨e2, r2, -⟩ := key other hpos.2 hother m2 q2 h2
    refine ⟨r1, r2, ?_⟩
    intro e
    rw [e] at e1
    exact hne (e2.symm.trans e1)

/-- C9 witness: a queue holding a pending request and the responses addressed to
clients 4242 and 4243, the other client's response first. -/
theorem c9_reply_correlation_witness :
    V3.client_receive 4242
        [V3.QMsg.request ⟨V3.REQ_EN_FR, 4243, "chat".toList⟩,
         V3.QMsg.response ⟨4243, 1, "cat".toList⟩,
         V3.QMsg.response ⟨4242, 0, []⟩] =
      some (V3.QMsg.response ⟨4242, 0, []⟩,
        [V3.QMsg.request ⟨V3.REQ_EN_FR, 4243, "chat".toList⟩,
         V3.QMsg.response ⟨4243, 1, "cat".toList⟩]) ∧
    ∃ m q1, V3.client_receive 4242
        [V3.QMsg.request ⟨V3.REQ_EN_FR, 4243, "chat".toList⟩,
         V3.QMsg.response ⟨4243, 1, "cat".toList⟩,
         V3.QMsg.response ⟨4242, 0, []⟩] = some (m, q1) :=
  ⟨by decide,
    (c9_reply_correlation 4242 4243 "en".toList "hello".toList
      [V3.QMsg.request ⟨V3.REQ_EN_FR, 4243, "chat".toList⟩,
       V3.QMsg.response ⟨4243, 1, "cat".toList⟩,
       V3.QMsg.response ⟨4242, 0, []⟩]
      (by decide) (by decide) (by decide) (by decide)
      (by
        intro r hr
        simp only [List.mem_cons, List.mem_singleton, V3.QMsg.request.injEq,
          List.not_mem_nil, or_false] at hr
        rcases hr with rfl | h | h
        · exact Or.inl rfl
        · exact absurd h (by simp)
        · exact absurd h (by simp))).2.2.2.1
      ⟨4242, 0, []⟩ (by decide) rfl⟩

/-- C9 counterexample: the client whose process ID is 1 sends `en hello` on an empty
queue; its request has `mtype = 1`, and its own `msgrcv` with type 1 hands it that
request back: the message received is a request, not a response. -/
theorem c9_counterexample :
    V3.client_send 1 "en".toList "hello".toList [] =
      some [V3.QMsg.request ⟨V3.REQ_EN_FR, 1,
        strncpy (List.replicate WORD_LEN NUL) "hello".toList (WORD_LEN - 1)⟩] ∧
    V3.client_receive 1 [V3.QMsg.request ⟨V3.REQ_EN_FR, 1,
        strncpy (List.replicate WORD_LEN NUL) "hello".toList (WORD_LEN - 1)⟩] =
      some (V3.QMsg.request ⟨V3.REQ_EN_FR, 1,
        strncpy (List.replicate WORD_LEN NUL) "hello".toList (WORD_LEN - 1)⟩, []) ∧
    ¬ ∃ resp, V3.client_receive 1 [V3.QMsg.request ⟨V3.REQ_EN_FR, 1,
        strncpy (List.replicate WORD_LEN NUL) "hello".toList (WORD_LEN - 1)⟩] =
      some (V3.QMsg.response resp, []) := by
  refine ⟨by decide, by decide, ?_⟩
  rintro ⟨resp, h⟩
  have h2 : V3.client_receive 1 [V3.QMsg.request ⟨V3.REQ_EN_FR, 1,
        strncpy (List.replicate WORD_LEN NUL) "hello".toList (WORD_LEN - 1)⟩] =
      some (V3.QMsg.request ⟨V3.REQ_EN_FR, 1,
        strncpy (List.replicate WORD_LEN NUL) "hello".toList (WORD_LEN - 1)⟩, []) := by
    decide
  rw [h2] at h
  simp at h

/-- C10: every field the ingester writes holds at most 49 bytes and its NUL.  For
every buffer `line` of any length: `load_file_into_dict` either pushes nothing or
pushes one record whose two fields are 50 bytes long, end in NUL and read as the
first `min (length) 49` bytes of the decoded sides; `load_file` either sends nothing
or calls `send_pair` on the decoded sides; the four fields `send_pair` writes hold,
in the same sense, the sides they are copied from; and `store_in_shm`, when there is
room (`count < cap`, the slot at `count` being one of the array, with 50 byte
fields), leaves in its slot fields that hold the fields of the message, hence the
sides themselves for a message that `send_pair` built. -/
theorem c10_fields_bounded (line en fr : List Char) (d : V1.Dict) (st : List V2.Msg × Nat)
    (s : V2.ShmDict) (m : V2.Msg) (hc : s.count < s.cap) (hd : s.count < s.data.length)
    (he : (V2.slot s s.count).english.length = WORD_LEN)
    (hf : (V2.slot s s.count).french.length = WORD_LEN) :
    (V1.load_line d line = d ∨ ∃ a b wp, decode line = some (a, b) ∧
      V1.load_line d line = d ++ [wp] ∧
      field_holds wp.english a ∧ field_holds wp.french b) ∧
    (V2.load_line st line = st ∨ ∃ a b, decode line = some (a, b) ∧
      V2.load_line st line = (st.1 ++ V2.send_pair a b, st.2 + 1) ∧
      cstr a = a ∧ cstr b = b) ∧
    (∃ m1 m2, V2.send_pair en fr = [m1, m2] ∧
      field_holds m1.english (cstr en) ∧ field_holds m1.french (cstr fr) ∧
      field_holds m2.english (cstr fr) ∧ field_holds m2.french (cstr en)) ∧
    (field_holds (V2.slot (V2.store_in_shm s m).1 s.count).english (cstr m.english) ∧
      field_holds (V2.slot (V2.store_in_shm s m).1 s.count).french (cstr m.french)) ∧
    (∀ x ∈ V2.send_pair en fr,
      (x.mtype = V2.EN_FR →
        field_holds (V2.slot (V2.store_in_shm s x).1 s.count).english (cstr en) ∧
        field_holds (V2.slot (V2.store_in_shm s x).1 s.count).french (cstr fr)) ∧
      (x.mtype = V2.FR_EN →
        field_holds (V2.slot (V2.store_in_shm s x).1 s.count).english (cstr fr) ∧
        field_holds (V2.slot (V2.store_in_shm s x).1 s.count).french (cstr en))) := by
  have hu := length_uninit_field
  have hstore : ∀ x : V2.Msg, V2.slot (V2.store_in_shm s x).1 s.count =
      ⟨copy_field (V2.slot s s.count).english x.english,
        copy_field (V2.slot s s.count).french x.french⟩ := by
    intro x
    rw [V2.store_in_shm_eq s x hc hd, V2.slot_set _ _ _ _ _ hd]
  have hcc : ∀ (dst a b : List Char), dst.length = WORD_LEN →
      field_holds (copy_field dst (copy_field a b)) (cstr b) := by
    intro dst a b hdst
    have h1 := field_holds_copy dst (copy_field a b) hdst
    obtain ⟨h11, h12, h13, h14⟩ := h1
    refine ⟨h11, h12, h13, ?_⟩
    rw [h14, cstr_copy_field, take_min_length, take_min_length, List.take_take,
      Nat.min_self]
  refine ⟨?_, ?_, ?_, ?_, ?_⟩
  · rw [V1.load_line_push]
    cases hdec : decode line with
    | none => exact Or.inl rfl
    | some p =>
      obtain ⟨a, b⟩ := p
      obtain ⟨hna, hnb, -, -⟩ := decode_some_not_mem hdec
      exact Or.inr ⟨a, b, _, rfl, rfl, field_holds_copy_cstr _ a hu hna,
        field_holds_copy_cstr _ b hu hnb⟩
  · rw [V2.load_line_send]
    cases hdec : decode line with
    | none => exact Or.inl rfl
    | some p =>
      obtain ⟨a, b⟩ := p
      obtain ⟨hna, hnb, -, -⟩ := decode_some_not_mem hdec
      exact Or.inr ⟨a, b, rfl, rfl, cstr_of_not_mem hna, cstr_of_not_mem hnb⟩
  · exact ⟨_, _, V2.send_pair_eq en fr, field_holds_copy _ _ hu, field_holds_copy _ _ hu,
      field_holds_copy _ _ hu, field_holds_copy _ _ hu⟩
  · rw [hstore]
    exact ⟨field_holds_copy _ _ he, field_holds_copy _ _ hf⟩
  · intro x hx
    rw [V2.send_pair_eq] at hx
    rw [hstore]
    simp only [List.mem_cons, List.mem_singleton, List.not_mem_nil, or_false] at hx
    rcases hx with rfl | rfl
    · exact ⟨fun _ => ⟨hcc _ _ _ he, hcc _ _ _ hf⟩, fun h => absurd h (show V2.EN_FR ≠ V2.FR_EN by decide)⟩
    · exact ⟨fun h => absurd h (show V2.FR_EN ≠ V2.EN_FR by decide), fun _ => ⟨hcc _ _ _ he, hcc _ _ _ hf⟩⟩

/-- C10 witness: the line `hello;bonjour`, and the message `hi`/`yo` stored in the
first slot of an empty store of capacity 2. -/
theorem c10_fields_bounded_witness :
    ((0 : Nat) < 2 ∧ 0 < (List.replicate 2 (⟨uninit_field, uninit_field⟩ : WordPair)).length) ∧
    (field_holds (V2.slot (V2.store_in_shm
        ⟨0, 2, List.replicate 2 ⟨uninit_field, uninit_field⟩⟩
        ⟨V2.EN_FR, "hi".toList, "yo".toList⟩).1 0).english (cstr "hi".toList) ∧
      field_holds (V2.slot (V2.store_in_shm
        ⟨0, 2, List.replicate 2 ⟨uninit_field, uninit_field⟩⟩
        ⟨V2.EN_FR, "hi".toList, "yo".toList⟩).1 0).french (cstr "yo".toList)) :=
  ⟨by decide,
    (c10_fields_bounded "hello;bonjour\n".toList "hello".toList "bonjour".toList [] ([], 0)
      ⟨0, 2, List.replicate 2 ⟨uninit_field, uninit_field⟩⟩
      ⟨V2.EN_FR, "hi".toList, "yo".toList⟩
      (by decide) (by decide) (by decide) (by decide)).2.2.2.1⟩

end OSA
